import Mathlib

/-!
Verification model of the TreeAlign recursive descent engine
(`src/treealign/clonealign_tree.py`, class `CloneAlignTree`).

The engine walks a rooted clade tree, assigning single cells to clades.
External collaborators (the ProfileBuilder `construct_total_copy_number_input`
/ `construct_allele_specific_input` / `make_columns_consistent` and the
Assigner `run_clonealign_pyro_repeat`, all inherited from the `CloneAlign`
base class, which is outside the repository slice) are modelled as an
abstract `Oracle` record; theorems quantify over it.  Only the table shapes
(row index, column labels) matter to the engine's control flow, so a
dataframe is modelled by its index and columns.  Python floats are modelled
by `ℚ` (the engine only forms `1 - none_freq` and compares with `≥`).

Ghost instrumentation: the state carries
  * `visits`           — one entry `(clade name, level)` per call of
                         `assign_cells_to_clade` (the entry trace),
  * `inference_calls`  — clade names at which `run_clonealign_pyro_repeat`
                         was invoked,
  * `writes`           — the chronological log of assignments written to
                         `clone_assign_dict`.
These fields are write-only: the engine never reads them, they merely record
the event trace that the Python code prints/performs.
-/

namespace TreeAlign

/-- A clade of the phylogenetic tree (`Bio.Phylo.BaseTree.Clade`): a name and
an ordered list of child clades.  Terminal clades (leaves) have no children
and their names are cell identifiers. -/
inductive Clade where
  | node (name : String) (children : List Clade)

def Clade.name : Clade → String
  | .node n _ => n

def Clade.children : Clade → List Clade
  | .node _ cs => cs

mutual
/-- `clade.get_terminals()` of Bio.Phylo, reduced to the list of terminal
names in depth-first order; a terminal clade yields itself. -/
def Clade.leafNames : Clade → List String
  | .node n [] => [n]
  | .node _ (c :: cs) => leafNamesList (c :: cs)

def leafNamesList : List Clade → List String
  | [] => []
  | c :: cs => Clade.leafNames c ++ leafNamesList cs
end

mutual
/-- All clades of the subtree rooted at a clade (the clade itself first). -/
def Clade.subclades : Clade → List Clade
  | .node n cs => .node n cs :: subcladesList cs

def subcladesList : List Clade → List Clade
  | [] => []
  | c :: cs => Clade.subclades c ++ subcladesList cs
end

/-- `v'` names a direct child of a clade of the tree `T` named `v` — one
parent-to-child refinement step of an assignment value. -/
def ParentChildName (T : Clade) (v v' : String) : Prop :=
  ∃ d ∈ Clade.subclades T, d.name = v ∧ v' ∈ d.children.map Clade.name

/-- Shape abstraction of a pandas DataFrame: `index` models `df.index`
(`shape[0] = index.length`) and `cols` models `df.columns`
(`shape[1] = cols.length`). -/
structure DF where
  index : List String
  cols : List String
deriving DecidableEq

/-- `check_valid_df_input` applied to one argument:
`arg is None or arg.shape[0] == 0 or arg.shape[1] == 0` means invalid. -/
def df_valid : Option DF → Bool
  | none => false
  | some d => !(d.index.length == 0) && !(d.cols.length == 0)

/-- `CloneAlignTree.check_valid_df_input(*argv)`: every argument must be a
present, non-empty table. -/
def check_valid_df_input (args : List (Option DF)) : Bool :=
  args.all df_valid

/-- Result of `run_clonealign_pyro_repeat` as consumed by the engine:
`none_freq`, the per-cell clone index series (`none` models NaN), and the
two optional parameter series from `params_dict`. -/
structure AssignResult where
  none_freq : ℚ
  clone_assign : Nat → Option Nat
  mean_gene_type_score : Option (List ℚ)
  mean_allele_assign_prob : Option (List ℚ)

/-- The external collaborators, as an abstract oracle.
`build_total` models `construct_total_copy_number_input`, `build_allele`
models `construct_allele_specific_input` (both keyed, as in the source, by
the per-clean-child terminal lists and the eligible cells; the column
harmonisation of `make_columns_consistent` is folded into the builders).
`run` models `run_clonealign_pyro_repeat` on the five table arguments. -/
structure Oracle where
  build_total : List (List String) → List String → Option DF × Option DF
  build_allele : List (List String) → List String → Option DF × Option DF × Option DF
  run : Option DF → Option DF → Option DF → Option DF → Option DF → AssignResult

/-- The engine's configuration (constructor parameters of `CloneAlignTree`
that the traversal reads). -/
structure Params where
  min_cell_count_expr : Nat
  min_cell_count_cnv : Nat
  min_gene_diff : Nat
  min_snp_diff : Nat
  level_cutoff : Nat
  min_proceed_freq : ℚ
  min_record_freq : ℚ
  infer_s_score : Bool
  infer_b_allele : Bool

/-- The mutable object state read and written by a traversal
(`clone_assign_dict`, `pruned_clades`, the two accumulator dicts), plus the
ghost event logs `visits`, `inference_calls` and `writes`. -/
structure TAState where
  clone_assign_dict : List (String × String)
  pruned_clades : List String
  gene_type_score_dict : List (String × List ℚ)
  allele_assign_prob_dict : List (String × List ℚ)
  visits : List (String × Nat)
  inference_calls : List String
  writes : List (String × String)
deriving DecidableEq

/-- Python dict assignment `d[k] = v`: replace the binding of `k` if present,
otherwise append it. -/
def dictInsert (d : List (String × String)) (k v : String) : List (String × String) :=
  match d with
  | [] => [(k, v)]
  | (k', v') :: rest => if k' = k then (k, v) :: rest else (k', v') :: dictInsert rest k v

/-- Python set insertion `s.add(n)` (idempotent). -/
def setInsert (s : List String) (n : String) : List String :=
  if n ∈ s then s else s ++ [n]

/-- Add every name of a list to the pruned set, in order (the
`for clade in clean_clades: self.pruned_clades.add(clade.name)` loops). -/
def pruneNames (names : List String) (s : List String) : List String :=
  names.foldl setInsert s

/-- One step of `record_param_to_dict`: `param_dict[k].append(v)`, creating
the list at first use. -/
def paramAppend (d : List (String × List ℚ)) (k : String) (v : ℚ) : List (String × List ℚ) :=
  match d with
  | [] => [(k, [v])]
  | (k', vs) :: rest => if k' = k then (k, vs ++ [v]) :: rest else (k', vs) :: paramAppend rest k v

/-- `CloneAlignTree.record_param_to_dict(param_dict, indices, params)`:
no-op when `params is None`, otherwise append `params[i]` to
`param_dict[indices[i]]` for each `i` (the source iterates the positions of
`params`; `zip` matches it whenever the series are of equal length, the only
case the source does not abort on). -/
def record_param_to_dict (d : List (String × List ℚ)) (indices : List String)
    (params : Option (List ℚ)) : List (String × List ℚ) :=
  match params with
  | none => d
  | some ps => (indices.zip ps).foldl (fun d kv => paramAppend d kv.1 kv.2) d

/-- Write `clone_assign_dict[cell] = nm` for every cell of the list, in
order (the loop bodies of `record_clone_assign_to_default` and of the
single-clean-child branch), logging each write. -/
def commitAllTo (cells : List String) (nm : String) (st : TAState) : TAState :=
  cells.foldl (fun s cell =>
    { s with clone_assign_dict := dictInsert s.clone_assign_dict cell nm,
             writes := s.writes ++ [(cell, nm)] }) st

/-- `CloneAlignTree.record_clone_assign_to_default(expr_cells, root_clade)`:
assign every cell to the root clade's name. -/
def record_clone_assign_to_default (cells : List String) (rootName : String)
    (st : TAState) : TAState :=
  commitAllTo cells rootName st

/-- Worker of `record_clone_assign_to_dict`: walk the cells with their
positions `k`; a cell whose assignment is NaN (`none`) is skipped, otherwise
it is assigned the name of the clean clade at the returned index.  (An
out-of-range index would raise in the source; the model leaves the state
unchanged there.) -/
def recordAssignAux (assign : Nat → Option Nat) (clean : List Clade) :
    List String → Nat → TAState → TAState
  | [], _, st => st
  | cell :: rest, k, st =>
    let st' := match assign k with
      | some j =>
        match clean.get? j with
        | some cl => { st with clone_assign_dict := dictInsert st.clone_assign_dict cell cl.name,
                               writes := st.writes ++ [(cell, cl.name)] }
        | none => st
      | none => st
    recordAssignAux assign clean rest (k + 1) st'

/-- The write log produced by the commit loop `recordAssignAux` alone: one
entry per non-NaN, in-range cell position. -/
def recordWrites (assign : Nat → Option Nat) (clean : List Clade) :
    List String → Nat → List (String × String)
  | [], _ => []
  | cell :: rest, k =>
    (match assign k with
     | some j =>
       match clean.get? j with
       | some cl => [(cell, cl.name)]
       | none => []
     | none => []) ++ recordWrites assign clean rest (k + 1)

/-- `CloneAlignTree.record_clone_assign_to_dict(expr_cells, clone_assign,
clean_clades)`. -/
def record_clone_assign_to_dict (cells : List String) (assign : Nat → Option Nat)
    (clean : List Clade) (st : TAState) : TAState :=
  recordAssignAux assign clean cells 0 st

/-- `[expr_cells[k] for k in range(len(expr_cells)) if clone_assign[k] == i]`:
the eligible cells whose returned index equals `i` (a NaN never equals `i`). -/
def cellsFor (assign : Nat → Option Nat) (i : Nat) :
    List String → Nat → List String
  | [], _ => []
  | cell :: rest, k =>
    (if assign k = some i then [cell] else []) ++ cellsFor assign i rest (k + 1)

/-- The clean children of a clade: direct children whose terminal count
reaches `min_cell_count_cnv`. -/
def cleanChildren (P : Params) (c : Clade) : List Clade :=
  c.children.filter (fun ch => !((Clade.leafNames ch).length < P.min_cell_count_cnv))

/-- The direct children filtered out (and immediately pruned) by the child
viability loop. -/
def dirtyChildren (P : Params) (c : Clade) : List Clade :=
  c.children.filter (fun ch => (Clade.leafNames ch).length < P.min_cell_count_cnv)

/-- `df.index` of an optional table (only read under a validity guard). -/
def dfIndex : Option DF → List String
  | none => []
  | some d => d.index

/-- The recording block (source lines 269–281): commit the clone assignment,
then accumulate the gene-type scores when the total-copy-number track is in
use and `infer_s_score` is set, and the allele-assignment probabilities when
the allele-specific track is in use and `infer_b_allele` is set. -/
def recordStep (P : Params) (cells : List String) (clean : List Clade)
    (cnvIndex hscnIndex : List String) (has_total has_allele : Bool)
    (res : AssignResult) (st : TAState) : TAState :=
  let st1 := record_clone_assign_to_dict cells res.clone_assign clean st
  let st2 := if has_total && P.infer_s_score then
      { st1 with gene_type_score_dict :=
          record_param_to_dict st1.gene_type_score_dict cnvIndex res.mean_gene_type_score }
    else st1
  if has_allele && P.infer_b_allele then
    { st2 with allele_assign_prob_dict :=
        record_param_to_dict st2.allele_assign_prob_dict hscnIndex res.mean_allele_assign_prob }
  else st2

mutual
/-- Height of a clade: 1 for a terminal, 1 + max child height otherwise.
Used only as the termination fuel of the traversal. -/
def Clade.height : Clade → Nat
  | .node _ cs => heightList cs + 1

def heightList : List Clade → Nat
  | [] => 0
  | c :: cs => max (Clade.height c) (heightList cs)
end

/-- The proceed loop `for i in range(len(clean_clades)): ...`, abstracted
over the function `f` applied to each clean child: child `i` receives the
eligible cells whose returned index equals `i`. -/
def kidsFold (f : Clade → List String → TAState → TAState)
    (cells : List String) (assign : Nat → Option Nat) :
    List Clade → Nat → TAState → TAState
  | [], _, st => st
  | ch :: rest, i, st =>
    kidsFold f cells assign rest (i + 1) (f ch (cellsFor assign i cells 0) st)

/-- Ghost logging of a visit entry (the `print("Start processing")` point of
`assign_cells_to_clade`). -/
def logVisit (c : Clade) (level : Nat) (st : TAState) : TAState :=
  { st with visits := st.visits ++ [(c.name, level)] }

/-- `self.pruned_clades.add(current_clade.name)`. -/
def pruneSelf (c : Clade) (st : TAState) : TAState :=
  { st with pruned_clades := setInsert st.pruned_clades c.name }

/-- The child viability loop's pruning of non-viable children. -/
def pruneDirty (P : Params) (c : Clade) (st : TAState) : TAState :=
  { st with pruned_clades := pruneNames ((dirtyChildren P c).map Clade.name) st.pruned_clades }

/-- `for clade in clean_clades: self.pruned_clades.add(clade.name)`. -/
def pruneClean (names : List String) (st : TAState) : TAState :=
  { st with pruned_clades := pruneNames names st.pruned_clades }

/-- Ghost logging of an Assigner invocation (the
`print("Start run clonealign for clade: ...")` point). -/
def logInference (c : Clade) (st : TAState) : TAState :=
  { st with inference_calls := st.inference_calls ++ [c.name] }

/-- The inference phase of a visit with `clean` (≥ 2) clean children (source
lines 192–294, minus the recursive descent): construct the two input tracks,
gate them, stop on "no usable input" or on insufficient discriminating
signal, otherwise call the Assigner, apply the recording decision, and
apply the proceed decision.  Returns the resulting state together with
`some assign` when the visit proceeds into the children with the returned
per-cell index series, and `none` when the visit stops here. -/
def multiStep (P : Params) (O : Oracle) (clean : List Clade) (c : Clade)
    (expr_cells : List String) (st : TAState) :
    TAState × Option (Nat → Option Nat) :=
  let terminals := clean.map Clade.leafNames
  let bt := O.build_total terminals expr_cells
  let ba := O.build_allele terminals expr_cells
  let has_allele := check_valid_df_input [ba.1, ba.2.1, ba.2.2]
  let has_total := check_valid_df_input [bt.1, bt.2]
  let gene_count := if has_total then (dfIndex bt.2).length else 0
  let snp_count := if has_allele then (dfIndex ba.1).length else 0
  if !has_total && !has_allele then
    (pruneClean (clean.map Clade.name) st, none)
  else if gene_count < P.min_gene_diff ∧ snp_count < P.min_snp_diff then
    (pruneClean (clean.map Clade.name) st, none)
  else
    let st1 := logInference c st
    let res := O.run (if has_total then bt.2 else none)
                     (if has_total then bt.1 else none)
                     (if has_allele then ba.1 else none)
                     (if has_allele then ba.2.1 else none)
                     (if has_allele then ba.2.2 else none)
    let stRec := if P.min_record_freq ≤ 1 - res.none_freq then
        recordStep P expr_cells clean
          (dfIndex (if has_total then bt.2 else none))
          (dfIndex (if has_allele then ba.1 else none))
          has_total has_allele res st1
      else st1
    if P.min_record_freq ≤ 1 - res.none_freq ∧
       P.min_proceed_freq ≤ 1 - res.none_freq then
      (stRec, some res.clone_assign)
    else
      (pruneClean (clean.map Clade.name) stRec, none)

/-- The body of `CloneAlignTree.assign_cells_to_clade(current_clade,
expr_cells, level)`, with the recursive occurrences abstracted as `recur`.
Faithful transcription of the source: depth guard, availability guard, child
viability filter, degenerate one/zero clean-child cases, then the inference
phase `multiStep`, recursing into each clean child on proceed. -/
def visitBody (P : Params) (O : Oracle)
    (recur : Clade → List String → Nat → TAState → TAState) (c : Clade)
    (expr_cells : List String) (level : Nat) (st0 : TAState) : TAState :=
  let st := logVisit c level st0
  if level > P.level_cutoff then
    pruneSelf c st
  else if expr_cells.length < P.min_cell_count_expr ∨
          (Clade.leafNames c).length < P.min_cell_count_cnv then
    pruneSelf c st
  else
    let clean := cleanChildren P c
    let st := pruneDirty P c st
    match clean with
    | [only] =>
      recur only expr_cells (level + 1) (commitAllTo expr_cells only.name st)
    | [] => st
    | k1 :: k2 :: krest =>
      match multiStep P O (k1 :: k2 :: krest) c expr_cells st with
      | (st', none) => st'
      | (st', some assign) =>
        kidsFold (fun ch cs s => recur ch cs (level + 1) s)
          expr_cells assign (k1 :: k2 :: krest) 0 st'

/-- Fuel-indexed traversal: `visitF (fuel+1)` runs `visitBody` with
`visitF fuel` as the recursion.  `fuel = Clade.height c` always suffices
(every recursive call descends to a direct child, whose height is smaller),
which `visitF_eq_of_le` below makes precise. -/
def visitF (P : Params) (O : Oracle) :
    Nat → Clade → List String → Nat → TAState → TAState
  | 0, _, _, _, st => st
  | fuel + 1, c, cells, level, st =>
    visitBody P O (fun ch cs l s => visitF P O fuel ch cs l s) c cells level st

/-- `CloneAlignTree.assign_cells_to_clade`: the traversal at sufficient
fuel.  Its defining recursion equation is `assign_cells_to_clade_eq`. -/
def assign_cells_to_clade (P : Params) (O : Oracle) (c : Clade)
    (expr_cells : List String) (level : Nat) (st : TAState) : TAState :=
  visitF P O (Clade.height c) c expr_cells level st

/-- The proceed loop: `for i in range(len(clean_clades)):` recurse into the
`i`-th clean clade, at the given level, with the cells whose returned index
equals `i`. -/
def assignKids (P : Params) (O : Oracle) (kids : List Clade) (i : Nat)
    (cells : List String) (assign : Nat → Option Nat) (lvl : Nat)
    (st : TAState) : TAState :=
  kidsFold (fun ch cs s => assign_cells_to_clade P O ch cs lvl s)
    cells assign kids i st

/-- The input cells of a traversal run (source lines 120–123):
`list(self.expr_df.columns)` when an expression table is present, otherwise
`list(self.snv_df.columns)`; `none` models the `AttributeError` raised when
both tables are absent. -/
def inputCells (expr_df snv_df : Option DF) : Option (List String) :=
  match expr_df with
  | some e => some e.cols
  | none =>
    match snv_df with
    | some s => some s.cols
    | none => none

/-- `CloneAlignTree.assign_cells_to_tree()`: reset `pruned_clades`, pick the
input cells, record the default (root) assignment for every one of them, and
start the descent at the root clade with level 0. -/
def assign_cells_to_tree (P : Params) (O : Oracle) (expr_df snv_df : Option DF)
    (tree : Clade) (st : TAState) : Option TAState :=
  let st1 := { st with pruned_clades := [] }
  match inputCells expr_df snv_df with
  | none => none
  | some cells =>
    some (assign_cells_to_clade P O tree cells 0
      (record_clone_assign_to_default cells tree.name st1))

/-! Concrete example instances used by witnesses and counterexamples. -/

/-- Permissive thresholds: one cell suffices everywhere, no signal minimum,
level cutoff 2, recording/proceed thresholds 0.7, both inference flags on. -/
def exParams : Params := ⟨1, 1, 0, 0, 2, 7/10, 7/10, true, true⟩

/-- `exParams` with `infer_s_score` disabled (a constructor option of
`CloneAlignTree`). -/
def exParamsNoS : Params := { exParams with infer_s_score := false }

/-- A root with two terminal children. -/
def exTree : Clade := .node "r" [.node "A" [], .node "B" []]

/-- An expression table with one gene row and two cells. -/
def exExpr : DF := ⟨["g1"], ["c1", "c2"]⟩

/-- Oracle with a usable total-copy-number track, no allele-specific data,
and a confident assigner splitting cell 0 to child 0 and cell 1 to child 1. -/
def exOracle : Oracle :=
  ⟨fun _ _ => (some ⟨["g1"], ["c1", "c2"]⟩, some ⟨["g1"], ["A", "B"]⟩),
   fun _ _ => (none, none, none),
   fun _ _ _ _ _ =>
     ⟨0, fun k => if k = 0 then some 0 else if k = 1 then some 1 else none,
      some [1], none⟩⟩

/-- Oracle producing no usable input on either track. -/
def exOracleBad : Oracle :=
  ⟨fun _ _ => (none, none), fun _ _ => (none, none, none),
   fun _ _ _ _ _ => ⟨0, fun _ => none, none, none⟩⟩

/-- Oracle whose assigner leaves cell 1 unassigned (NaN index). -/
def exOracleNaN : Oracle :=
  ⟨fun _ _ => (some ⟨["g1"], ["c1", "c2"]⟩, some ⟨["g1"], ["A", "B"]⟩),
   fun _ _ => (none, none, none),
   fun _ _ _ _ _ =>
     ⟨0, fun k => if k = 0 then some 0 else none, some [1], none⟩⟩

/-- Oracle like `exOracle` but with a low-confidence assigner
(`none_freq = 1/2`, below the 0.7 thresholds). -/
def exOracleLow : Oracle :=
  ⟨fun _ _ => (some ⟨["g1"], ["c1", "c2"]⟩, some ⟨["g1"], ["A", "B"]⟩),
   fun _ _ => (none, none, none),
   fun _ _ _ _ _ => ⟨1/2, fun _ => none, some [1], none⟩⟩

/-- The empty object state (as after `CloneAlign.__init__`). -/
def exState : TAState := ⟨[], [], [], [], [], [], []⟩

/-- A root with a single terminal child (the bypass shape). -/
def exTree1 : Clade := .node "r" [.node "A" []]

theorem Clade.height_pos (c : Clade) : 0 < Clade.height c := by
  cases c with
  | node n cs => simp only [Clade.height]; omega

theorem Clade.height_le_heightList {ch : Clade} {cs : List Clade} (h : ch ∈ cs) :
    Clade.height ch ≤ heightList cs := by
  induction cs with
  | nil => cases h
  | cons a tl ih =>
    rcases List.mem_cons.mp h with h' | h'
    · subst h'; simp only [heightList]; omega
    · have := ih h'
      simp only [heightList]
      omega

theorem Clade.height_child_le {ch c : Clade} (h : ch ∈ c.children) :
    Clade.height ch + 1 ≤ Clade.height c := by
  cases c with
  | node n cs =>
    simp only [Clade.children] at h
    have := Clade.height_le_heightList h
    simp only [Clade.height]
    omega

theorem mem_cleanChildren {P : Params} {ch c : Clade}
    (h : ch ∈ cleanChildren P c) : ch ∈ c.children :=
  (List.mem_filter.mp h).1

theorem kidsFold_congr {f1 f2 : Clade → List String → TAState → TAState}
    {cells : List String} {assign : Nat → Option Nat} {kids : List Clade}
    (h : ∀ ch ∈ kids, ∀ cs s, f1 ch cs s = f2 ch cs s) :
    ∀ (i : Nat) (st : TAState),
      kidsFold f1 cells assign kids i st = kidsFold f2 cells assign kids i st := by
  induction kids with
  | nil => intro i st; rfl
  | cons a tl ih =>
    intro i st
    simp only [kidsFold]
    rw [h a (List.mem_cons_self a tl)]
    exact ih (fun ch hch cs s => h ch (List.mem_cons_of_mem a hch) cs s) (i + 1) _

theorem visitBody_congr {P : Params} {O : Oracle}
    {r1 r2 : Clade → List String → Nat → TAState → TAState} {c : Clade}
    {cells : List String} {level : Nat} {st : TAState}
    (h : ∀ ch ∈ cleanChildren P c, ∀ cs l s, r1 ch cs l s = r2 ch cs l s) :
    visitBody P O r1 c cells level st = visitBody P O r2 c cells level st := by
  unfold visitBody
  split
  · rfl
  split
  · rfl
  rcases hcl : cleanChildren P c with _ | ⟨a, _ | ⟨b, tl⟩⟩
  · simp only [hcl]
  · simp only [hcl]
    rw [h a (by rw [hcl]; exact List.mem_cons_self _ _)]
  · simp only [hcl]
    split
    · rfl
    · exact kidsFold_congr
        (fun ch hch cs s => h ch (by rw [hcl]; exact hch) cs (level + 1) s) 0 _

theorem visitF_eq_of_le {P : Params} {O : Oracle} {f : Nat} {c : Clade}
    (hf : Clade.height c ≤ f) :
    ∀ (cells : List String) (lvl : Nat) (st : TAState),
      visitF P O f c cells lvl st = visitF P O (Clade.height c) c cells lvl st := by
  induction f using Nat.strong_induction_on generalizing c with
  | _ f ih =>
    intro cells lvl st
    have hpos := Clade.height_pos c
    rcases hfc : Clade.height c with _ | hc
    · omega
    rcases hff : f with _ | f'
    · omega
    simp only [visitF]
    apply visitBody_congr
    intro ch hch cs l s
    have hchild := Clade.height_child_le (mem_cleanChildren hch)
    have h1 : Clade.height ch ≤ f' := by omega
    have h2 : Clade.height ch ≤ hc := by omega
    have e1 := ih f' (by omega) h1 cs l s
    have e2 := ih hc (by omega) h2 cs l s
    rw [e1, e2]

/-- The defining recursion equation of `assign_cells_to_clade`: one visit
runs the source body, with recursion into `assign_cells_to_clade` itself. -/
theorem assign_cells_to_clade_eq (P : Params) (O : Oracle) (c : Clade)
    (cells : List String) (level : Nat) (st : TAState) :
    assign_cells_to_clade P O c cells level st
      = visitBody P O (assign_cells_to_clade P O) c cells level st := by
  unfold assign_cells_to_clade
  have hpos := Clade.height_pos c
  rcases hfc : Clade.height c with _ | hc
  · omega
  simp only [visitF]
  apply visitBody_congr
  intro ch hch cs l s
  have hchild := Clade.height_child_le (mem_cleanChildren hch)
  exact visitF_eq_of_le (by omega) cs l s

theorem lookup_dictInsert (d : List (String × String)) (k v x : String) :
    List.lookup x (dictInsert d k v) = if x = k then some v else List.lookup x d := by
  induction d with
  | nil =>
    simp only [dictInsert]
    cases hbe : x == k
    · have hx : ¬ x = k := by simpa using hbe
      simp only [List.lookup, hbe, if_neg hx]
    · have hx : x = k := by simpa using hbe
      simp only [List.lookup, hbe, if_pos hx]
  | cons p rest ih =>
    rcases p with ⟨k', v'⟩
    simp only [dictInsert]
    by_cases hk : k' = k
    · subst hk
      simp only [if_pos rfl]
      cases hbe : x == k'
      · have hx : ¬ x = k' := by simpa using hbe
        simp only [List.lookup, hbe, if_neg hx]
      · have hx : x = k' := by simpa using hbe
        simp only [List.lookup, hbe, if_pos hx]
    · rw [if_neg hk]
      cases hbe : x == k'
      · simp only [List.lookup, hbe, ih]
      · have hx : x = k' := by simpa using hbe
        have hxk : ¬ x = k := fun h => hk (hx ▸ h)
        simp only [List.lookup, hbe, if_neg hxk]

theorem isSome_lookup_dictInsert {d : List (String × String)} {x : String}
    (k v : String) (h : (List.lookup x d).isSome) :
    (List.lookup x (dictInsert d k v)).isSome := by
  rw [lookup_dictInsert]
  by_cases hx : x = k
  · simp [hx]
  · simpa [hx] using h

theorem mem_setInsert {s : List String} {n x : String} :
    x ∈ setInsert s n ↔ x ∈ s ∨ x = n := by
  unfold setInsert
  by_cases h : n ∈ s
  · simp only [if_pos h]
    constructor
    · exact Or.inl
    · rintro (hx | rfl)
      · exact hx
      · exact h
  · simp [if_neg h]

theorem mem_pruneNames {names s : List String} {x : String} :
    x ∈ pruneNames names s ↔ x ∈ s ∨ x ∈ names := by
  induction names generalizing s with
  | nil => simp [pruneNames]
  | cons a tl ih =>
    unfold pruneNames at ih ⊢
    rw [List.foldl_cons, ih, mem_setInsert]
    constructor
    · rintro ((h | h) | h)
      · exact Or.inl h
      · exact Or.inr (by simp [h])
      · exact Or.inr (List.mem_cons_of_mem a h)
    · rintro (h | h)
      · exact Or.inl (Or.inl h)
      · rcases List.mem_cons.mp h with h' | h'
        · exact Or.inl (Or.inr h')
        · exact Or.inr h'

/-- A relation on states closed under every primitive mutation the engine
performs.  Any such relation holds between the state before and after any
visit (`StepClosed.visit`), giving the reusable monotonicity facts of the
traversal. -/
structure StepClosed (R : TAState → TAState → Prop) : Prop where
  refl : ∀ s, R s s
  trans : ∀ {a b c : TAState}, R a b → R b c → R a c
  vis : ∀ s (c : Clade) (lvl : Nat), R s (logVisit c lvl s)
  pruneS : ∀ s (c : Clade), R s (pruneSelf c s)
  pruneN : ∀ s (names : List String), R s (pruneClean names s)
  inf : ∀ s (c : Clade), R s (logInference c s)
  write : ∀ s (cell nm : String),
    R s { s with clone_assign_dict := dictInsert s.clone_assign_dict cell nm,
                 writes := s.writes ++ [(cell, nm)] }
  gene : ∀ s (idx : List String) (ps : Option (List ℚ)),
    R s { s with gene_type_score_dict := record_param_to_dict s.gene_type_score_dict idx ps }
  allele : ∀ s (idx : List String) (ps : Option (List ℚ)),
    R s { s with allele_assign_prob_dict := record_param_to_dict s.allele_assign_prob_dict idx ps }

theorem StepClosed.commitAll {R : TAState → TAState → Prop} (h : StepClosed R)
    (cells : List String) (nm : String) : ∀ st, R st (commitAllTo cells nm st) := by
  induction cells with
  | nil => intro st; exact h.refl st
  | cons a tl ih =>
    intro st
    exact h.trans (h.write st a nm) (ih _)

theorem StepClosed.recordAux {R : TAState → TAState → Prop} (h : StepClosed R)
    (assign : Nat → Option Nat) (clean : List Clade) :
    ∀ (cells : List String) (k : Nat) (st : TAState),
      R st (recordAssignAux assign clean cells k st) := by
  intro cells
  induction cells with
  | nil => intro k st; exact h.refl st
  | cons a tl ih =>
    intro k st
    simp only [recordAssignAux]
    rcases assign k with _ | j
    · exact ih _ _
    · dsimp only
      rcases clean.get? j with _ | cl
      · exact ih _ _
      · exact h.trans (h.write st a cl.name) (ih _ _)

theorem StepClosed.record {R : TAState → TAState → Prop} (h : StepClosed R)
    (P : Params) (cells : List String) (clean : List Clade)
    (ci hi : List String) (ht ha : Bool) (res : AssignResult) (st : TAState) :
    R st (recordStep P cells clean ci hi ht ha res st) := by
  unfold recordStep record_clone_assign_to_dict
  refine h.trans (h.recordAux res.clone_assign clean cells 0 st) ?_
  split_ifs
  all_goals first
    | exact h.trans (h.gene _ ci res.mean_gene_type_score)
        (h.allele _ hi res.mean_allele_assign_prob)
    | exact h.gene _ ci res.mean_gene_type_score
    | exact h.allele _ hi res.mean_allele_assign_prob
    | exact h.refl _

theorem StepClosed.multi {R : TAState → TAState → Prop} (h : StepClosed R)
    (P : Params) (O : Oracle) (clean : List Clade) (c : Clade)
    (cells : List String) (st : TAState) :
    R st (multiStep P O clean c cells st).1 := by
  unfold multiStep
  dsimp only
  split_ifs
  all_goals first
    | exact h.pruneN st _
    | exact h.trans (h.inf st c) (h.record P cells clean _ _ _ _ _ _)
    | exact h.inf st c
    | exact h.trans (h.trans (h.inf st c) (h.record P cells clean _ _ _ _ _ _))
        (h.pruneN _ _)
    | exact h.trans (h.inf st c) (h.pruneN _ _)

theorem StepClosed.kids {R : TAState → TAState → Prop} (h : StepClosed R)
    {f : Clade → List String → TAState → TAState}
    (hf : ∀ ch cs s, R s (f ch cs s)) (cells : List String)
    (assign : Nat → Option Nat) :
    ∀ (kids : List Clade) (i : Nat) (st : TAState),
      R st (kidsFold f cells assign kids i st) := by
  intro kids
  induction kids with
  | nil => intro i st; exact h.refl st
  | cons a tl ih =>
    intro i st
    exact h.trans (hf a _ st) (ih _ _)

theorem StepClosed.visitFuel {R : TAState → TAState → Prop} (h : StepClosed R)
    (P : Params) (O : Oracle) :
    ∀ (f : Nat) (c : Clade) (cells : List String) (lvl : Nat) (st : TAState),
      R st (visitF P O f c cells lvl st) := by
  intro f
  induction f with
  | zero => intro c cells lvl st; exact h.refl st
  | succ f ih =>
    intro c cells lvl st
    simp only [visitF]
    unfold visitBody
    split
    · exact h.trans (h.vis st c lvl) (h.pruneS _ c)
    split
    · exact h.trans (h.vis st c lvl) (h.pruneS _ c)
    rcases hcl : cleanChildren P c with _ | ⟨a, _ | ⟨b, tl⟩⟩
    · simp only [hcl]
      exact h.trans (h.vis st c lvl) (h.pruneN _ _)
    · simp only [hcl]
      exact h.trans (h.vis st c lvl)
        (h.trans (h.pruneN _ _) (h.trans (h.commitAll cells a.name _) (ih _ _ _ _)))
    · simp only [hcl]
      split
      · rename_i st' heq
        have := h.multi P O (a :: b :: tl) c cells
          (pruneDirty P c (logVisit c lvl st))
        rw [heq] at this
        exact h.trans (h.trans (h.vis st c lvl) (h.pruneN _ _)) this
      · rename_i st' assign heq
        have hm := h.multi P O (a :: b :: tl) c cells
          (pruneDirty P c (logVisit c lvl st))
        rw [heq] at hm
        exact h.trans (h.trans (h.trans (h.vis st c lvl) (h.pruneN _ _)) hm)
          (h.kids (fun ch cs s => ih ch cs (lvl + 1) s) cells assign _ 0 _)

/-- Any step-closed relation holds across a whole visit. -/
theorem StepClosed.visit {R : TAState → TAState → Prop} (h : StepClosed R)
    (P : Params) (O : Oracle) (c : Clade) (cells : List String) (lvl : Nat)
    (st : TAState) : R st (assign_cells_to_clade P O c cells lvl st) :=
  h.visitFuel P O (Clade.height c) c cells lvl st

theorem visit_depth_eq {P : Params} {O : Oracle} {c : Clade} {cells : List String}
    {level : Nat} {st : TAState} (h : level > P.level_cutoff) :
    assign_cells_to_clade P O c cells level st = pruneSelf c (logVisit c level st) := by
  rw [assign_cells_to_clade_eq]
  unfold visitBody
  rw [if_pos h]

theorem visit_avail_eq {P : Params} {O : Oracle} {c : Clade} {cells : List String}
    {level : Nat} {st : TAState} (hlv : ¬ level > P.level_cutoff)
    (hav : cells.length < P.min_cell_count_expr ∨
      (Clade.leafNames c).length < P.min_cell_count_cnv) :
    assign_cells_to_clade P O c cells level st = pruneSelf c (logVisit c level st) := by
  rw [assign_cells_to_clade_eq]
  unfold visitBody
  rw [if_neg hlv, if_pos hav]

theorem visit_zero_eq {P : Params} {O : Oracle} {c : Clade} {cells : List String}
    {level : Nat} {st : TAState} (hlv : ¬ level > P.level_cutoff)
    (hav : ¬ (cells.length < P.min_cell_count_expr ∨
      (Clade.leafNames c).length < P.min_cell_count_cnv))
    (hcl : cleanChildren P c = []) :
    assign_cells_to_clade P O c cells level st = pruneDirty P c (logVisit c level st) := by
  rw [assign_cells_to_clade_eq]
  unfold visitBody
  rw [if_neg hlv, if_neg hav]
  simp only [hcl]

theorem visit_one_eq {P : Params} {O : Oracle} {c only : Clade} {cells : List String}
    {level : Nat} {st : TAState} (hlv : ¬ level > P.level_cutoff)
    (hav : ¬ (cells.length < P.min_cell_count_expr ∨
      (Clade.leafNames c).length < P.min_cell_count_cnv))
    (hcl : cleanChildren P c = [only]) :
    assign_cells_to_clade P O c cells level st
      = assign_cells_to_clade P O only cells (level + 1)
          (commitAllTo cells only.name (pruneDirty P c (logVisit c level st))) := by
  rw [assign_cells_to_clade_eq]
  unfold visitBody
  rw [if_neg hlv, if_neg hav]
  simp only [hcl]

theorem visit_multi_eq {P : Params} {O : Oracle} {c k1 k2 : Clade} {krest : List Clade}
    {cells : List String} {level : Nat} {st : TAState}
    (hlv : ¬ level > P.level_cutoff)
    (hav : ¬ (cells.length < P.min_cell_count_expr ∨
      (Clade.leafNames c).length < P.min_cell_count_cnv))
    (hcl : cleanChildren P c = k1 :: k2 :: krest) :
    assign_cells_to_clade P O c cells level st
      = (match multiStep P O (k1 :: k2 :: krest) c cells
            (pruneDirty P c (logVisit c level st)) with
         | (st', none) => st'
         | (st', some assign) =>
             assignKids P O (k1 :: k2 :: krest) 0 cells assign (level + 1) st') := by
  rw [assign_cells_to_clade_eq]
  unfold visitBody
  rw [if_neg hlv, if_neg hav]
  simp only [hcl]
  rcases multiStep P O (k1 :: k2 :: krest) c cells
      (pruneDirty P c (logVisit c level st)) with ⟨st', _ | assign⟩
  · rfl
  · rfl

theorem lookup_commitAllTo (cells : List String) (nm : String) :
    ∀ (st : TAState) (x : String),
      List.lookup x (commitAllTo cells nm st).clone_assign_dict
        = if x ∈ cells then some nm else List.lookup x st.clone_assign_dict := by
  induction cells with
  | nil => intro st x; simp [commitAllTo]
  | cons a tl ih =>
    intro st x
    have step : commitAllTo (a :: tl) nm st
        = commitAllTo tl nm
            { st with clone_assign_dict := dictInsert st.clone_assign_dict a nm,
                      writes := st.writes ++ [(a, nm)] } := rfl
    rw [step, ih]
    by_cases htl : x ∈ tl
    · simp [htl, List.mem_cons]
    · by_cases hx : x = a
      · simp [htl, hx, lookup_dictInsert]
      · simp [htl, hx, List.mem_cons, lookup_dictInsert]

theorem commitAllTo_fields (cells : List String) (nm : String) :
    ∀ st : TAState,
      (commitAllTo cells nm st).pruned_clades = st.pruned_clades
      ∧ (commitAllTo cells nm st).gene_type_score_dict = st.gene_type_score_dict
      ∧ (commitAllTo cells nm st).allele_assign_prob_dict = st.allele_assign_prob_dict
      ∧ (commitAllTo cells nm st).visits = st.visits
      ∧ (commitAllTo cells nm st).inference_calls = st.inference_calls := by
  induction cells with
  | nil => intro st; exact ⟨rfl, rfl, rfl, rfl, rfl⟩
  | cons a tl ih =>
    intro st
    exact ih { st with clone_assign_dict := dictInsert st.clone_assign_dict a nm,
                       writes := st.writes ++ [(a, nm)] }

/-- C10: when a traversal run starts, the initialized and traversed cell set
is the expression table's column list when an expression table is provided,
otherwise the SNV table's column list; with neither table present the entry
point has no cell list to work on (the model returns `none`, where the
source raises). -/
theorem claim_C10 (P : Params) (O : Oracle) (tree : Clade) (st : TAState) :
    (∀ (e : DF) (snv : Option DF),
      assign_cells_to_tree P O (some e) snv tree st
        = some (assign_cells_to_clade P O tree e.cols 0
            (record_clone_assign_to_default e.cols tree.name
              { st with pruned_clades := [] })))
    ∧ (∀ s : DF,
      assign_cells_to_tree P O none (some s) tree st
        = some (assign_cells_to_clade P O tree s.cols 0
            (record_clone_assign_to_default s.cols tree.name
              { st with pruned_clades := [] })))
    ∧ assign_cells_to_tree P O none none tree st = none :=
  ⟨fun _ _ => rfl, fun _ => rfl, rfl⟩

/-- C4: a visit that passes the depth and availability guards and has
exactly one clean child commits every eligible cell to that child's name
(no inference call is logged, no confidence check is consulted) and then
recurses into that child at `level + 1` with the same eligible cell set. -/
theorem claim_C4 {P : Params} {O : Oracle} {c only : Clade} {cells : List String}
    {level : Nat} {st : TAState}
    (hlv : ¬ level > P.level_cutoff)
    (hav : ¬ (cells.length < P.min_cell_count_expr ∨
      (Clade.leafNames c).length < P.min_cell_count_cnv))
    (hcl : cleanChildren P c = [only]) :
    assign_cells_to_clade P O c cells level st
      = assign_cells_to_clade P O only cells (level + 1)
          (commitAllTo cells only.name (pruneDirty P c (logVisit c level st)))
    ∧ (∀ x ∈ cells,
        List.lookup x (commitAllTo cells only.name
          (pruneDirty P c (logVisit c level st))).clone_assign_dict = some only.name)
    ∧ (commitAllTo cells only.name
        (pruneDirty P c (logVisit c level st))).inference_calls = st.inference_calls := by
  refine ⟨visit_one_eq hlv hav hcl, ?_, ?_⟩
  · intro x hx
    rw [lookup_commitAllTo, if_pos hx]
  · rw [(commitAllTo_fields cells only.name _).2.2.2.2]
    rfl

theorem claim_C4_witness :
    cleanChildren exParams exTree1 = [Clade.node "A" []]
    ∧ assign_cells_to_clade exParams exOracle exTree1 ["c1", "c2"] 0 exState
        = assign_cells_to_clade exParams exOracle (Clade.node "A" []) ["c1", "c2"] 1
            (commitAllTo ["c1", "c2"] (Clade.node "A" []).name
              (pruneDirty exParams exTree1 (logVisit exTree1 0 exState))) :=
  ⟨by with_unfolding_all rfl,
   (claim_C4 (by decide) (by with_unfolding_all decide)
     (show cleanChildren exParams exTree1 = [Clade.node "A" []] by
       with_unfolding_all rfl)).1⟩

theorem df_valid_iff (a : Option DF) :
    df_valid a = true ↔ ∃ d, a = some d ∧ 0 < d.index.length ∧ 0 < d.cols.length := by
  cases a with
  | none => simp [df_valid]
  | some d =>
    simp only [df_valid, Bool.and_eq_true, Bool.not_eq_eq_eq_not, Bool.not_true,
      beq_eq_false_iff_ne, ne_eq]
    constructor
    · rintro ⟨h1, h2⟩
      exact ⟨d, rfl, Nat.pos_of_ne_zero h1, Nat.pos_of_ne_zero h2⟩
    · rintro ⟨d', hd, h1, h2⟩
      cases hd
      exact ⟨Nat.pos_iff_ne_zero.mp h1, Nat.pos_iff_ne_zero.mp h2⟩

theorem multiStep_no_usable {P : Params} {O : Oracle} {clean : List Clade}
    {c : Clade} {cells : List String} {st : TAState} {oe oc oh osa osv : Option DF}
    (hbt : O.build_total (clean.map Clade.leafNames) cells = (oe, oc))
    (hba : O.build_allele (clean.map Clade.leafNames) cells = (oh, osa, osv))
    (ht : check_valid_df_input [oe, oc] = false)
    (ha : check_valid_df_input [oh, osa, osv] = false) :
    multiStep P O clean c cells st = (pruneClean (clean.map Clade.name) st, none) := by
  unfold multiStep
  dsimp only
  rw [hbt, hba]
  dsimp only
  rw [ht, ha]
  rfl

/-- C8: a table is classified valid iff it is present with at least one row
and at least one column; and a visit with ≥ 2 clean children where neither
the total-copy-number track nor the allele-specific track is usable prunes
every clean child and stops — the Assigner is not called and no assignment
changes. -/
theorem claim_C8 :
    (∀ args : List (Option DF), check_valid_df_input args = true ↔
        ∀ a ∈ args, ∃ d, a = some d ∧ 0 < d.index.length ∧ 0 < d.cols.length)
    ∧ ∀ (P : Params) (O : Oracle) (c k1 k2 : Clade) (krest : List Clade)
        (cells : List String) (level : Nat) (st : TAState)
        (oe oc oh osa osv : Option DF),
        ¬ level > P.level_cutoff →
        ¬ (cells.length < P.min_cell_count_expr ∨
            (Clade.leafNames c).length < P.min_cell_count_cnv) →
        cleanChildren P c = k1 :: k2 :: krest →
        O.build_total ((k1 :: k2 :: krest).map Clade.leafNames) cells = (oe, oc) →
        O.build_allele ((k1 :: k2 :: krest).map Clade.leafNames) cells = (oh, osa, osv) →
        check_valid_df_input [oe, oc] = false →
        check_valid_df_input [oh, osa, osv] = false →
        assign_cells_to_clade P O c cells level st
          = pruneClean ((k1 :: k2 :: krest).map Clade.name)
              (pruneDirty P c (logVisit c level st))
        ∧ (assign_cells_to_clade P O c cells level st).inference_calls
            = st.inference_calls
        ∧ (assign_cells_to_clade P O c cells level st).clone_assign_dict
            = st.clone_assign_dict
        ∧ ∀ nm ∈ (k1 :: k2 :: krest).map Clade.name,
            nm ∈ (assign_cells_to_clade P O c cells level st).pruned_clades := by
  constructor
  · intro args
    unfold check_valid_df_input
    rw [List.all_eq_true]
    constructor
    · intro h a ha
      exact (df_valid_iff a).mp (h a ha)
    · intro h a ha
      exact (df_valid_iff a).mpr (h a ha)
  · intro P O c k1 k2 krest cells level st oe oc oh osa osv hlv hav hcl hbt hba ht ha
    have heq := @visit_multi_eq P O _ _ _ _ _ _ st hlv hav hcl
    rw [multiStep_no_usable hbt hba ht ha] at heq
    dsimp only at heq
    refine ⟨heq, by rw [heq]; rfl, by rw [heq]; rfl, ?_⟩
    intro nm hnm
    rw [heq]
    exact mem_pruneNames.mpr (Or.inr hnm)

theorem claim_C8_witness :
    check_valid_df_input [(none : Option DF), none] = false
    ∧ cleanChildren exParams exTree = [Clade.node "A" [], Clade.node "B" []]
    ∧ assign_cells_to_clade exParams exOracleBad exTree ["c1", "c2"] 0 exState
        = pruneClean ([Clade.node "A" [], Clade.node "B" []].map Clade.name)
            (pruneDirty exParams exTree (logVisit exTree 0 exState)) :=
  ⟨by decide, rfl,
   ((claim_C8.2 exParams exOracleBad exTree (Clade.node "A" []) (Clade.node "B" []) []
      ["c1", "c2"] 0 exState none none none none none
      (by decide) (by with_unfolding_all decide)
      (show cleanChildren exParams exTree
          = [Clade.node "A" [], Clade.node "B" []] by with_unfolding_all rfl)
      rfl rfl (by decide) (by decide))).1⟩

theorem recordAssignAux_fields (assign : Nat → Option Nat) (clean : List Clade) :
    ∀ (cells : List String) (k : Nat) (st : TAState),
      (recordAssignAux assign clean cells k st).pruned_clades = st.pruned_clades
      ∧ (recordAssignAux assign clean cells k st).gene_type_score_dict
          = st.gene_type_score_dict
      ∧ (recordAssignAux assign clean cells k st).allele_assign_prob_dict
          = st.allele_assign_prob_dict
      ∧ (recordAssignAux assign clean cells k st).visits = st.visits
      ∧ (recordAssignAux assign clean cells k st).inference_calls
          = st.inference_calls := by
  intro cells
  induction cells with
  | nil => intro k st; exact ⟨rfl, rfl, rfl, rfl, rfl⟩
  | cons a tl ih =>
    intro k st
    simp only [recordAssignAux]
    rcases assign k with _ | j
    · exact ih _ _
    · dsimp only
      rcases clean.get? j with _ | cl
      · exact ih _ _
      · exact ih _ _

theorem recordStep_visits (P : Params) (cells : List String) (clean : List Clade)
    (ci hi : List String) (ht ha : Bool) (res : AssignResult) (st : TAState) :
    (recordStep P cells clean ci hi ht ha res st).visits = st.visits
    ∧ (recordStep P cells clean ci hi ht ha res st).pruned_clades = st.pruned_clades
    ∧ (recordStep P cells clean ci hi ht ha res st).inference_calls
        = st.inference_calls := by
  unfold recordStep record_clone_assign_to_dict
  have h := recordAssignAux_fields res.clone_assign clean cells 0 st
  split_ifs
  all_goals exact ⟨h.2.2.2.1, h.1, h.2.2.2.2⟩

theorem multiStep_fst_visits (P : Params) (O : Oracle) (clean : List Clade)
    (c : Clade) (cells : List String) (st : TAState) :
    ((multiStep P O clean c cells st).1).visits = st.visits := by
  unfold multiStep
  dsimp only
  split_ifs
  all_goals first
    | rfl
    | exact (recordStep_visits P cells clean _ _ _ _ _ _).1

theorem kidsFold_visits_bound {P : Params} {O : Oracle} (f : Nat) (lvl : Nat)
    (cells : List String) (assign : Nat → Option Nat)
    (hb : ∀ (c' : Clade) (cs' : List String) (st' : TAState),
      ∀ nl ∈ (visitF P O f c' cs' lvl st').visits,
        nl ∈ st'.visits ∨ nl.2 ≤ P.level_cutoff + 1) :
    ∀ (kids : List Clade) (i : Nat) (st : TAState),
      ∀ nl ∈ (kidsFold (fun ch cs s => visitF P O f ch cs lvl s)
          cells assign kids i st).visits,
        nl ∈ st.visits ∨ nl.2 ≤ P.level_cutoff + 1 := by
  intro kids
  induction kids with
  | nil => intro i st nl hnl; exact Or.inl hnl
  | cons a tl ihk =>
    intro i st nl hnl
    rcases ihk _ _ nl hnl with h | h
    · exact hb a _ st nl h
    · exact Or.inr h

theorem visitF_visits_bound {P : Params} {O : Oracle} :
    ∀ (f : Nat) (c : Clade) (cells : List String) (lvl : Nat) (st : TAState),
      lvl ≤ P.level_cutoff + 1 →
      ∀ nl ∈ (visitF P O f c cells lvl st).visits,
        nl ∈ st.visits ∨ nl.2 ≤ P.level_cutoff + 1 := by
  intro f
  induction f with
  | zero => intro c cells lvl st _ nl hnl; exact Or.inl hnl
  | succ f ih =>
    intro c cells lvl st hlvl nl
    simp only [visitF]
    unfold visitBody
    split
    · intro hnl
      rcases List.mem_append.mp hnl with h | h
      · exact Or.inl h
      · right
        rcases List.mem_singleton.mp h with rfl
        exact hlvl
    split
    · intro hnl
      rcases List.mem_append.mp hnl with h | h
      · exact Or.inl h
      · right
        rcases List.mem_singleton.mp h with rfl
        exact hlvl
    rename_i hguard _
    have hlvl1 : lvl + 1 ≤ P.level_cutoff + 1 := by omega
    rcases hcl : cleanChildren P c with _ | ⟨a, _ | ⟨b, tl⟩⟩
    · simp only [hcl]
      intro hnl
      rcases List.mem_append.mp hnl with h | h
      · exact Or.inl h
      · right
        rcases List.mem_singleton.mp h with rfl
        exact hlvl
    · simp only [hcl]
      intro hnl
      rcases ih a cells (lvl + 1) _ hlvl1 nl hnl with h | h
      · rw [(commitAllTo_fields cells a.name _).2.2.2.1] at h
        rcases List.mem_append.mp h with h' | h'
        · exact Or.inl h'
        · right
          rcases List.mem_singleton.mp h' with rfl
          exact hlvl
      · exact Or.inr h
    · simp only [hcl]
      split
      · rename_i st' heq
        intro hnl
        have hv : st'.visits = st.visits ++ [(c.name, lvl)] := by
          have := multiStep_fst_visits P O (a :: b :: tl) c cells
            (pruneDirty P c (logVisit c lvl st))
          rw [heq] at this
          exact this
        rw [hv] at hnl
        rcases List.mem_append.mp hnl with h | h
        · exact Or.inl h
        · right
          rcases List.mem_singleton.mp h with rfl
          exact hlvl
      · rename_i st' assign heq
        intro hnl
        have hv : st'.visits = st.visits ++ [(c.name, lvl)] := by
          have := multiStep_fst_visits P O (a :: b :: tl) c cells
            (pruneDirty P c (logVisit c lvl st))
          rw [heq] at this
          exact this
        rcases kidsFold_visits_bound f (lvl + 1) cells assign
            (fun c' cs' st' => ih c' cs' (lvl + 1) st' hlvl1) _ 0 st' nl hnl with h | h
        · rw [hv] at h
          rcases List.mem_append.mp h with h' | h'
          · exact Or.inl h'
          · right
            rcases List.mem_singleton.mp h' with rfl
            exact hlvl
        · exact Or.inr h

/-- C7: the traversal terminates along the depth guard: a visit entered with
`level > level_cutoff` only logs itself, adds the clade to `pruned_clades`
and returns immediately; recursive calls pass `level + 1` (see
`visit_one_eq` and `visit_multi_eq`), and every visit reached from a root
visit at level 0 has level at most `level_cutoff + 1`. -/
theorem claim_C7 :
    (∀ (P : Params) (O : Oracle) (c : Clade) (cells : List String)
        (level : Nat) (st : TAState),
      level > P.level_cutoff →
      assign_cells_to_clade P O c cells level st = pruneSelf c (logVisit c level st)
      ∧ c.name ∈ (assign_cells_to_clade P O c cells level st).pruned_clades)
    ∧ ∀ (P : Params) (O : Oracle) (c : Clade) (cells : List String) (st : TAState),
        ∀ nl ∈ (assign_cells_to_clade P O c cells 0 st).visits,
          nl ∈ st.visits ∨ nl.2 ≤ P.level_cutoff + 1 := by
  constructor
  · intro P O c cells level st h
    refine ⟨visit_depth_eq h, ?_⟩
    rw [visit_depth_eq h]
    exact mem_setInsert.mpr (Or.inr rfl)
  · intro P O c cells st nl hnl
    exact visitF_visits_bound (Clade.height c) c cells 0 st (by omega) nl hnl

theorem claim_C7_witness :
    (3 : Nat) > exParams.level_cutoff
    ∧ assign_cells_to_clade exParams exOracle exTree ["c1", "c2"] 3 exState
        = pruneSelf exTree (logVisit exTree 3 exState) :=
  ⟨by decide,
   (claim_C7.1 exParams exOracle exTree ["c1", "c2"] 3 exState (by decide)).1⟩

theorem dict_domain_closed : StepClosed (fun s s' => ∀ x : String,
    (List.lookup x s.clone_assign_dict).isSome →
    (List.lookup x s'.clone_assign_dict).isSome) where
  refl := fun _ _ h => h
  trans := fun hab hbc x h => hbc x (hab x h)
  vis := fun _ _ _ _ h => h
  pruneS := fun _ _ _ h => h
  pruneN := fun _ _ _ h => h
  inf := fun _ _ _ h => h
  write := fun _ cell nm _ h => isSome_lookup_dictInsert cell nm h
  gene := fun _ _ _ _ h => h
  allele := fun _ _ _ _ h => h

/-- C3: after a run of the traversal entry point, `clone_assign_dict` is
defined on every input cell: the default recording maps every input cell to
the root clade's name, and no operation of a visit ever removes an entry
from `clone_assign_dict`. -/
theorem claim_C3 :
    (∀ (cells : List String) (rootName : String) (st : TAState), ∀ x ∈ cells,
      List.lookup x (record_clone_assign_to_default cells rootName st).clone_assign_dict
        = some rootName)
    ∧ (∀ (P : Params) (O : Oracle) (c : Clade) (cs : List String) (lvl : Nat)
        (st : TAState) (x : String),
        (List.lookup x st.clone_assign_dict).isSome →
        (List.lookup x (assign_cells_to_clade P O c cs lvl st).clone_assign_dict).isSome)
    ∧ ∀ (P : Params) (O : Oracle) (expr snv : Option DF) (tree : Clade)
        (st st' : TAState) (cells : List String),
        inputCells expr snv = some cells →
        assign_cells_to_tree P O expr snv tree st = some st' →
        ∀ x ∈ cells, (List.lookup x st'.clone_assign_dict).isSome := by
  refine ⟨?_, ?_, ?_⟩
  · intro cells rootName st x hx
    unfold record_clone_assign_to_default
    rw [lookup_commitAllTo, if_pos hx]
  · intro P O c cs lvl st x h
    exact dict_domain_closed.visit P O c cs lvl st x h
  · intro P O expr snv tree st st' cells hcells hrun x hx
    unfold assign_cells_to_tree at hrun
    rw [hcells] at hrun
    dsimp only at hrun
    rcases Option.some_injective _ hrun with rfl
    apply dict_domain_closed.visit
    rw [(by rfl :
      (record_clone_assign_to_default cells tree.name
        { st with pruned_clades := [] }).clone_assign_dict
      = (commitAllTo cells tree.name { st with pruned_clades := [] }).clone_assign_dict)]
    rw [lookup_commitAllTo, if_pos hx]
    rfl

theorem claim_C3_witness :
    inputCells (some exExpr) none = some ["c1", "c2"]
    ∧ (List.lookup "c1"
        (assign_cells_to_clade exParams exOracle exTree ["c1", "c2"] 0
          (record_clone_assign_to_default ["c1", "c2"] exTree.name
            { exState with pruned_clades := [] })).clone_assign_dict).isSome :=
  ⟨rfl,
   claim_C3.2.2 exParams exOracle (some exExpr) none exTree exState
     (assign_cells_to_clade exParams exOracle exTree ["c1", "c2"] 0
       (record_clone_assign_to_default ["c1", "c2"] exTree.name
         { exState with pruned_clades := [] }))
     ["c1", "c2"] rfl rfl "c1" (by decide)⟩

/-- C6 (amended): a run of the traversal entry point resets `pruned_clades`
to empty and re-assigns every input cell to the root clade's name, but it
does **not** clear the `gene_type_score_dict` / `allele_assign_prob_dict`
accumulators, which are only initialized at object construction — so a
second run keeps the first run's accumulated entries. -/
theorem claim_C6 (P : Params) (O : Oracle) (expr snv : Option DF) (tree : Clade)
    (st : TAState) (cells : List String) (h : inputCells expr snv = some cells) :
    assign_cells_to_tree P O expr snv tree st
      = some (assign_cells_to_clade P O tree cells 0
          (record_clone_assign_to_default cells tree.name
            { st with pruned_clades := [] }))
    ∧ (record_clone_assign_to_default cells tree.name
        { st with pruned_clades := [] }).pruned_clades = []
    ∧ (∀ x ∈ cells,
        List.lookup x (record_clone_assign_to_default cells tree.name
          { st with pruned_clades := [] }).clone_assign_dict = some tree.name)
    ∧ (record_clone_assign_to_default cells tree.name
        { st with pruned_clades := [] }).gene_type_score_dict
          = st.gene_type_score_dict
    ∧ (record_clone_assign_to_default cells tree.name
        { st with pruned_clades := [] }).allele_assign_prob_dict
          = st.allele_assign_prob_dict := by
  have hf := commitAllTo_fields cells tree.name { st with pruned_clades := [] }
  refine ⟨?_, ?_, ?_, ?_, ?_⟩
  · unfold assign_cells_to_tree
    rw [h]
  · exact hf.1
  · intro x hx
    unfold record_clone_assign_to_default
    rw [lookup_commitAllTo, if_pos hx]
  · exact hf.2.1
  · exact hf.2.2.1

/-- C6, counterexample to the claim as stated: the accumulators are not
reset by the entry point, so two successive runs on the same object append
the gene-type scores twice, unlike a single run. -/
theorem claim_C6_counterexample :
    (assign_cells_to_tree exParams exOracle (some exExpr) none exTree exState).map
        (fun s => s.gene_type_score_dict) = some [("g1", [1])]
    ∧ ((assign_cells_to_tree exParams exOracle (some exExpr) none exTree exState).bind
        (fun s1 => assign_cells_to_tree exParams exOracle (some exExpr) none exTree s1)).map
          (fun s => s.gene_type_score_dict) = some [("g1", [1, 1])]
    ∧ ((assign_cells_to_tree exParams exOracle (some exExpr) none exTree exState).bind
        (fun s1 => assign_cells_to_tree exParams exOracle (some exExpr) none exTree s1)).map
          (fun s => s.gene_type_score_dict)
      ≠ (assign_cells_to_tree exParams exOracle (some exExpr) none exTree exState).map
          (fun s => s.gene_type_score_dict) := by
  refine ⟨?_, ?_, ?_⟩ <;> with_unfolding_all decide

theorem claim_C6_witness :
    inputCells (some exExpr) none = some ["c1", "c2"]
    ∧ assign_cells_to_tree exParams exOracle (some exExpr) none exTree exState
        = some (assign_cells_to_clade exParams exOracle exTree ["c1", "c2"] 0
            (record_clone_assign_to_default ["c1", "c2"] exTree.name
              { exState with pruned_clades := [] })) :=
  ⟨rfl, (claim_C6 exParams exOracle (some exExpr) none exTree exState
    ["c1", "c2"] rfl).1⟩

theorem mem_cellsFor {assign : Nat → Option Nat} {i : Nat} :
    ∀ {cells : List String} {k0 : Nat} {x : String},
      x ∈ cellsFor assign i cells k0
        ↔ ∃ p, cells.get? p = some x ∧ assign (k0 + p) = some i := by
  intro cells
  induction cells with
  | nil =>
    intro k0 x
    simp [cellsFor]
  | cons a tl ih =>
    intro k0 x
    simp only [cellsFor, List.mem_append]
    constructor
    · rintro (h | h)
      · rcases hak : assign k0 with _ | j
        · rw [hak] at h; simp at h
        · rw [hak] at h
          by_cases hj : j = i
          · subst hj
            simp only [if_pos rfl] at h
            rcases List.mem_singleton.mp h with rfl
            exact ⟨0, rfl, by simpa using hak⟩
          · rw [if_neg (by simpa using hj)] at h
            simp at h
      · rcases ih.mp h with ⟨p, hp, ha⟩
        exact ⟨p + 1, by simpa using hp, by rw [← ha]; ring_nf⟩
    · rintro ⟨p, hp, ha⟩
      cases p with
      | zero =>
        left
        rcases Option.some_injective _ hp with rfl
        rw [Nat.add_zero] at ha
        rw [ha, if_pos rfl]
        exact List.mem_singleton_self _
      | succ p =>
        right
        refine ih.mpr ⟨p, by simpa using hp, ?_⟩
        rw [← ha]
        ring_nf

theorem multiStep_proceed {P : Params} {O : Oracle} {clean : List Clade}
    {c : Clade} {cells : List String} {st : TAState}
    {oe oc oh osa osv : Option DF} {res : AssignResult}
    (hbt : O.build_total (clean.map Clade.leafNames) cells = (oe, oc))
    (hba : O.build_allele (clean.map Clade.leafNames) cells = (oh, osa, osv))
    (husable : check_valid_df_input [oe, oc] = true
      ∨ check_valid_df_input [oh, osa, osv] = true)
    (hsig : ¬ ((if check_valid_df_input [oe, oc] = true then (dfIndex oc).length else 0)
          < P.min_gene_diff
        ∧ (if check_valid_df_input [oh, osa, osv] = true then (dfIndex oh).length else 0)
          < P.min_snp_diff))
    (hres : O.run (if check_valid_df_input [oe, oc] = true then oc else none)
        (if check_valid_df_input [oe, oc] = true then oe else none)
        (if check_valid_df_input [oh, osa, osv] = true then oh else none)
        (if check_valid_df_input [oh, osa, osv] = true then osa else none)
        (if check_valid_df_input [oh, osa, osv] = true then osv else none) = res)
    (hrp : P.min_record_freq ≤ 1 - res.none_freq
      ∧ P.min_proceed_freq ≤ 1 - res.none_freq) :
    multiStep P O clean c cells st
      = (recordStep P cells clean
          (dfIndex (if check_valid_df_input [oe, oc] = true then oc else none))
          (dfIndex (if check_valid_df_input [oh, osa, osv] = true then oh else none))
          (check_valid_df_input [oe, oc]) (check_valid_df_input [oh, osa, osv])
          res (logInference c st), some res.clone_assign) := by
  have hnu : ¬ ((!check_valid_df_input [oe, oc]
      && !check_valid_df_input [oh, osa, osv]) = true) := by
    rcases husable with h | h <;> simp [h]
  unfold multiStep
  dsimp only
  rw [hbt, hba]
  dsimp only
  rw [if_neg hnu, if_neg hsig, hres, if_pos hrp.1, if_pos hrp]

theorem multiStep_stop {P : Params} {O : Oracle} {clean : List Clade}
    {c : Clade} {cells : List String} {st : TAState}
    {oe oc oh osa osv : Option DF} {res : AssignResult}
    (hbt : O.build_total (clean.map Clade.leafNames) cells = (oe, oc))
    (hba : O.build_allele (clean.map Clade.leafNames) cells = (oh, osa, osv))
    (husable : check_valid_df_input [oe, oc] = true
      ∨ check_valid_df_input [oh, osa, osv] = true)
    (hsig : ¬ ((if check_valid_df_input [oe, oc] = true then (dfIndex oc).length else 0)
          < P.min_gene_diff
        ∧ (if check_valid_df_input [oh, osa, osv] = true then (dfIndex oh).length else 0)
          < P.min_snp_diff))
    (hres : O.run (if check_valid_df_input [oe, oc] = true then oc else none)
        (if check_valid_df_input [oe, oc] = true then oe else none)
        (if check_valid_df_input [oh, osa, osv] = true then oh else none)
        (if check_valid_df_input [oh, osa, osv] = true then osa else none)
        (if check_valid_df_input [oh, osa, osv] = true then osv else none) = res)
    (hnp : ¬ (P.min_record_freq ≤ 1 - res.none_freq
      ∧ P.min_proceed_freq ≤ 1 - res.none_freq)) :
    multiStep P O clean c cells st
      = (pruneClean (clean.map Clade.name)
          (if P.min_record_freq ≤ 1 - res.none_freq then
            recordStep P cells clean
              (dfIndex (if check_valid_df_input [oe, oc] = true then oc else none))
              (dfIndex (if check_valid_df_input [oh, osa, osv] = true then oh else none))
              (check_valid_df_input [oe, oc]) (check_valid_df_input [oh, osa, osv])
              res (logInference c st)
           else logInference c st), none) := by
  have hnu : ¬ ((!check_valid_df_input [oe, oc]
      && !check_valid_df_input [oh, osa, osv]) = true) := by
    rcases husable with h | h <;> simp [h]
  unfold multiStep
  dsimp only
  rw [hbt, hba]
  dsimp only
  rw [if_neg hnu, if_neg hsig, hres, if_neg hnp]

/-- C2: a visit that reaches the inference call recurses iff both
`1 − none_freq ≥ min_record_freq` and `1 − none_freq ≥ min_proceed_freq`
hold; in that case the proceed loop sends each clean child `i`, at
`level + 1`, exactly the eligible cells whose returned index equals `i`;
otherwise every clean child is pruned and the visit stops with no further
visit logged. -/
theorem claim_C2 {P : Params} {O : Oracle} {c k1 k2 : Clade} {krest : List Clade}
    {cells : List String} {level : Nat} {st : TAState}
    {oe oc oh osa osv : Option DF} {res : AssignResult}
    (hlv : ¬ level > P.level_cutoff)
    (hav : ¬ (cells.length < P.min_cell_count_expr ∨
      (Clade.leafNames c).length < P.min_cell_count_cnv))
    (hcl : cleanChildren P c = k1 :: k2 :: krest)
    (hbt : O.build_total ((k1 :: k2 :: krest).map Clade.leafNames) cells = (oe, oc))
    (hba : O.build_allele ((k1 :: k2 :: krest).map Clade.leafNames) cells = (oh, osa, osv))
    (husable : check_valid_df_input [oe, oc] = true
      ∨ check_valid_df_input [oh, osa, osv] = true)
    (hsig : ¬ ((if check_valid_df_input [oe, oc] = true then (dfIndex oc).length else 0)
          < P.min_gene_diff
        ∧ (if check_valid_df_input [oh, osa, osv] = true then (dfIndex oh).length else 0)
          < P.min_snp_diff))
    (hres : O.run (if check_valid_df_input [oe, oc] = true then oc else none)
        (if check_valid_df_input [oe, oc] = true then oe else none)
        (if check_valid_df_input [oh, osa, osv] = true then oh else none)
        (if check_valid_df_input [oh, osa, osv] = true then osa else none)
        (if check_valid_df_input [oh, osa, osv] = true then osv else none) = res) :
    (P.min_record_freq ≤ 1 - res.none_freq ∧ P.min_proceed_freq ≤ 1 - res.none_freq →
      assign_cells_to_clade P O c cells level st
        = assignKids P O (k1 :: k2 :: krest) 0 cells res.clone_assign (level + 1)
            (recordStep P cells (k1 :: k2 :: krest)
              (dfIndex (if check_valid_df_input [oe, oc] = true then oc else none))
              (dfIndex (if check_valid_df_input [oh, osa, osv] = true then oh else none))
              (check_valid_df_input [oe, oc]) (check_valid_df_input [oh, osa, osv]) res
              (logInference c (pruneDirty P c (logVisit c level st)))))
    ∧ (¬ (P.min_record_freq ≤ 1 - res.none_freq
        ∧ P.min_proceed_freq ≤ 1 - res.none_freq) →
      assign_cells_to_clade P O c cells level st
        = pruneClean ((k1 :: k2 :: krest).map Clade.name)
            (if P.min_record_freq ≤ 1 - res.none_freq then
              recordStep P cells (k1 :: k2 :: krest)
                (dfIndex (if check_valid_df_input [oe, oc] = true then oc else none))
                (dfIndex (if check_valid_df_input [oh, osa, osv] = true then oh else none))
                (check_valid_df_input [oe, oc]) (check_valid_df_input [oh, osa, osv]) res
                (logInference c (pruneDirty P c (logVisit c level st)))
             else logInference c (pruneDirty P c (logVisit c level st)))
      ∧ (assign_cells_to_clade P O c cells level st).visits
          = st.visits ++ [(c.name, level)]
      ∧ ∀ nm ∈ (k1 :: k2 :: krest).map Clade.name,
          nm ∈ (assign_cells_to_clade P O c cells level st).pruned_clades)
    ∧ (∀ (ch : Clade) (rest : List Clade) (i : Nat) (assign : Nat → Option Nat)
        (lvl : Nat) (s : TAState),
        assignKids P O (ch :: rest) i cells assign lvl s
          = assignKids P O rest (i + 1) cells assign lvl
              (assign_cells_to_clade P O ch (cellsFor assign i cells 0) lvl s))
    ∧ ∀ (i : Nat) (x : String),
        x ∈ cellsFor res.clone_assign i cells 0
          ↔ ∃ k, cells.get? k = some x ∧ res.clone_assign k = some i := by
  refine ⟨?_, ?_, fun ch rest i assign lvl s => rfl, ?_⟩
  · intro hrp
    have heq := @visit_multi_eq P O _ _ _ _ _ _ st hlv hav hcl
    rw [multiStep_proceed hbt hba husable hsig hres hrp] at heq
    dsimp only at heq
    exact heq
  · intro hnp
    have heq := @visit_multi_eq P O _ _ _ _ _ _ st hlv hav hcl
    rw [multiStep_stop hbt hba husable hsig hres hnp] at heq
    dsimp only at heq
    refine ⟨heq, ?_, ?_⟩
    · rw [heq]
      show (if P.min_record_freq ≤ 1 - res.none_freq then _ else _ : TAState).visits = _
      split
      · exact (recordStep_visits P cells (k1 :: k2 :: krest) _ _ _ _ res _).1
      · rfl
    · intro nm hnm
      rw [heq]
      exact mem_pruneNames.mpr (Or.inr hnm)
  · intro i x
    have h := @mem_cellsFor res.clone_assign i cells 0 x
    simpa using h

theorem claim_C2_witness :
    cleanChildren exParams exTree = [Clade.node "A" [], Clade.node "B" []]
    ∧ (exParams.min_record_freq
        ≤ 1 - (exOracle.run (some ⟨["g1"], ["A", "B"]⟩) (some ⟨["g1"], ["c1", "c2"]⟩)
            none none none).none_freq
      ∧ exParams.min_proceed_freq
        ≤ 1 - (exOracle.run (some ⟨["g1"], ["A", "B"]⟩) (some ⟨["g1"], ["c1", "c2"]⟩)
            none none none).none_freq →
      assign_cells_to_clade exParams exOracle exTree ["c1", "c2"] 0 exState
        = assignKids exParams exOracle [Clade.node "A" [], Clade.node "B" []] 0
            ["c1", "c2"]
            (exOracle.run (some ⟨["g1"], ["A", "B"]⟩) (some ⟨["g1"], ["c1", "c2"]⟩)
              none none none).clone_assign 1
            (recordStep exParams ["c1", "c2"] [Clade.node "A" [], Clade.node "B" []]
              (dfIndex (if check_valid_df_input
                  [some ⟨["g1"], ["c1", "c2"]⟩, some ⟨["g1"], ["A", "B"]⟩] = true
                then some ⟨["g1"], ["A", "B"]⟩ else none))
              (dfIndex (if check_valid_df_input
                  [(none : Option DF), none, none] = true
                then none else none))
              (check_valid_df_input
                [some ⟨["g1"], ["c1", "c2"]⟩, some ⟨["g1"], ["A", "B"]⟩])
              (check_valid_df_input [(none : Option DF), none, none])
              (exOracle.run (some ⟨["g1"], ["A", "B"]⟩) (some ⟨["g1"], ["c1", "c2"]⟩)
                none none none)
              (logInference exTree (pruneDirty exParams exTree
                (logVisit exTree 0 exState))))) := by
  refine ⟨by with_unfolding_all rfl, ?_⟩
  exact (claim_C2 (by decide) (by with_unfolding_all decide)
    (show cleanChildren exParams exTree = [Clade.node "A" [], Clade.node "B" []] by
      with_unfolding_all rfl)
    rfl rfl (Or.inl (by decide)) (by decide) rfl).1

theorem recordAssignAux_dict_congr (assign : Nat → Option Nat) (clean : List Clade) :
    ∀ (cells : List String) (k : Nat) (st st' : TAState),
      st.clone_assign_dict = st'.clone_assign_dict →
      (recordAssignAux assign clean cells k st).clone_assign_dict
        = (recordAssignAux assign clean cells k st').clone_assign_dict := by
  intro cells
  induction cells with
  | nil => intro k st st' h; exact h
  | cons a tl ih =>
    intro k st st' h
    simp only [recordAssignAux]
    rcases assign k with _ | j
    · exact ih _ _ _ h
    · dsimp only
      rcases clean.get? j with _ | cl
      · exact ih _ _ _ h
      · exact ih _ _ _ (by simp only [h])

theorem recordStep_dict (P : Params) (cells : List String) (clean : List Clade)
    (ci hi : List String) (ht ha : Bool) (res : AssignResult) (st : TAState) :
    (recordStep P cells clean ci hi ht ha res st).clone_assign_dict
      = (record_clone_assign_to_dict cells res.clone_assign clean st).clone_assign_dict := by
  unfold recordStep
  split_ifs <;> rfl

theorem recordStep_gene (P : Params) (cells : List String) (clean : List Clade)
    (ci hi : List String) (ht ha : Bool) (res : AssignResult) (st : TAState) :
    (recordStep P cells clean ci hi ht ha res st).gene_type_score_dict
      = if ht && P.infer_s_score then
          record_param_to_dict st.gene_type_score_dict ci res.mean_gene_type_score
        else st.gene_type_score_dict := by
  unfold recordStep record_clone_assign_to_dict
  have hg := (recordAssignAux_fields res.clone_assign clean cells 0 st).2.1
  split_ifs <;> simp only [hg]

theorem recordStep_allele (P : Params) (cells : List String) (clean : List Clade)
    (ci hi : List String) (ht ha : Bool) (res : AssignResult) (st : TAState) :
    (recordStep P cells clean ci hi ht ha res st).allele_assign_prob_dict
      = if ha && P.infer_b_allele then
          record_param_to_dict st.allele_assign_prob_dict hi res.mean_allele_assign_prob
        else st.allele_assign_prob_dict := by
  unfold recordStep record_clone_assign_to_dict
  have hg := (recordAssignAux_fields res.clone_assign clean cells 0 st).2.2.1
  split_ifs <;> simp only [hg]

/-- C1 (amended): a visit that reaches the inference call commits the
eligible cells per the returned index vector iff
`1 − none_freq ≥ min_record_freq`.  When recording happens, the gene-type
scores are accumulated iff the total-copy-number track was usable **and**
`infer_s_score` is enabled (`record_param_to_dict` is a no-op if the
returned mean series is absent), and the allele-assignment probabilities
are accumulated iff the allele-specific track was usable **and**
`infer_b_allele` is enabled.  When the threshold is missed, no assignment
or accumulator is mutated at this step. -/
theorem claim_C1 {P : Params} {O : Oracle} {c k1 k2 : Clade} {krest : List Clade}
    {cells : List String} {level : Nat} {st : TAState}
    {oe oc oh osa osv : Option DF} {res : AssignResult}
    (hlv : ¬ level > P.level_cutoff)
    (hav : ¬ (cells.length < P.min_cell_count_expr ∨
      (Clade.leafNames c).length < P.min_cell_count_cnv))
    (hcl : cleanChildren P c = k1 :: k2 :: krest)
    (hbt : O.build_total ((k1 :: k2 :: krest).map Clade.leafNames) cells = (oe, oc))
    (hba : O.build_allele ((k1 :: k2 :: krest).map Clade.leafNames) cells = (oh, osa, osv))
    (husable : check_valid_df_input [oe, oc] = true
      ∨ check_valid_df_input [oh, osa, osv] = true)
    (hsig : ¬ ((if check_valid_df_input [oe, oc] = true then (dfIndex oc).length else 0)
          < P.min_gene_diff
        ∧ (if check_valid_df_input [oh, osa, osv] = true then (dfIndex oh).length else 0)
          < P.min_snp_diff))
    (hres : O.run (if check_valid_df_input [oe, oc] = true then oc else none)
        (if check_valid_df_input [oe, oc] = true then oe else none)
        (if check_valid_df_input [oh, osa, osv] = true then oh else none)
        (if check_valid_df_input [oh, osa, osv] = true then osa else none)
        (if check_valid_df_input [oh, osa, osv] = true then osv else none) = res) :
    (P.min_record_freq ≤ 1 - res.none_freq →
      ∃ stRec : TAState,
        assign_cells_to_clade P O c cells level st
          = (if P.min_proceed_freq ≤ 1 - res.none_freq then
              assignKids P O (k1 :: k2 :: krest) 0 cells res.clone_assign (level + 1) stRec
             else pruneClean ((k1 :: k2 :: krest).map Clade.name) stRec)
        ∧ stRec.clone_assign_dict
            = (record_clone_assign_to_dict cells res.clone_assign (k1 :: k2 :: krest)
                st).clone_assign_dict
        ∧ stRec.gene_type_score_dict
            = (if check_valid_df_input [oe, oc] && P.infer_s_score then
                record_param_to_dict st.gene_type_score_dict
                  (dfIndex (if check_valid_df_input [oe, oc] = true then oc else none))
                  res.mean_gene_type_score
               else st.gene_type_score_dict)
        ∧ stRec.allele_assign_prob_dict
            = (if check_valid_df_input [oh, osa, osv] && P.infer_b_allele then
                record_param_to_dict st.allele_assign_prob_dict
                  (dfIndex (if check_valid_df_input [oh, osa, osv] = true then oh else none))
                  res.mean_allele_assign_prob
               else st.allele_assign_prob_dict))
    ∧ (¬ P.min_record_freq ≤ 1 - res.none_freq →
      assign_cells_to_clade P O c cells level st
        = pruneClean ((k1 :: k2 :: krest).map Clade.name)
            (logInference c (pruneDirty P c (logVisit c level st)))
      ∧ (assign_cells_to_clade P O c cells level st).clone_assign_dict
          = st.clone_assign_dict
      ∧ (assign_cells_to_clade P O c cells level st).gene_type_score_dict
          = st.gene_type_score_dict
      ∧ (assign_cells_to_clade P O c cells level st).allele_assign_prob_dict
          = st.allele_assign_prob_dict) := by
  constructor
  · intro hrec
    refine ⟨recordStep P cells (k1 :: k2 :: krest)
      (dfIndex (if check_valid_df_input [oe, oc] = true then oc else none))
      (dfIndex (if check_valid_df_input [oh, osa, osv] = true then oh else none))
      (check_valid_df_input [oe, oc]) (check_valid_df_input [oh, osa, osv]) res
      (logInference c (pruneDirty P c (logVisit c level st))), ?_, ?_, ?_, ?_⟩
    · by_cases hproc : P.min_proceed_freq ≤ 1 - res.none_freq
      · rw [if_pos hproc]
        have heq := @visit_multi_eq P O _ _ _ _ _ _ st hlv hav hcl
        rw [multiStep_proceed hbt hba husable hsig hres ⟨hrec, hproc⟩] at heq
        dsimp only at heq
        exact heq
      · rw [if_neg hproc]
        have heq := @visit_multi_eq P O _ _ _ _ _ _ st hlv hav hcl
        rw [multiStep_stop hbt hba husable hsig hres (fun h => hproc h.2)] at heq
        dsimp only at heq
        rw [if_pos hrec] at heq
        exact heq
    · rw [recordStep_dict]
      exact recordAssignAux_dict_congr res.clone_assign (k1 :: k2 :: krest)
        cells 0 _ st rfl
    · rw [recordStep_gene]
      rfl
    · rw [recordStep_allele]
      rfl
  · intro hrec
    have heq := @visit_multi_eq P O _ _ _ _ _ _ st hlv hav hcl
    rw [multiStep_stop hbt hba husable hsig hres (fun h => hrec h.1)] at heq
    dsimp only at heq
    rw [if_neg hrec] at heq
    exact ⟨heq, by rw [heq]; rfl, by rw [heq]; rfl, by rw [heq]; rfl⟩

theorem claim_C1_witness :
    ¬ exParams.min_record_freq
        ≤ 1 - (exOracleLow.run (some ⟨["g1"], ["A", "B"]⟩)
            (some ⟨["g1"], ["c1", "c2"]⟩) none none none).none_freq
    ∧ assign_cells_to_clade exParams exOracleLow exTree ["c1", "c2"] 0 exState
        = pruneClean ([Clade.node "A" [], Clade.node "B" []].map Clade.name)
            (logInference exTree (pruneDirty exParams exTree
              (logVisit exTree 0 exState))) := by
  refine ⟨by with_unfolding_all decide, ?_⟩
  exact ((claim_C1 (by decide) (by with_unfolding_all decide)
    (show cleanChildren exParams exTree = [Clade.node "A" [], Clade.node "B" []] by
      with_unfolding_all rfl)
    rfl rfl (Or.inl (by decide)) (by decide) rfl).2
      (by with_unfolding_all decide)).1

/-- C1, counterexample to the claim as stated: with the constructor option
`infer_s_score = False`, a visit records (cells are committed to "A"/"B",
the record threshold was met, the total-copy-number track was usable and
the inference ran), yet nothing is appended to `gene_type_score_dict`. -/
theorem claim_C1_counterexample :
    (assign_cells_to_clade exParamsNoS exOracle exTree ["c1", "c2"] 0
        exState).clone_assign_dict = [("c1", "A"), ("c2", "B")]
    ∧ exParamsNoS.min_record_freq
        ≤ 1 - (exOracle.run (some ⟨["g1"], ["A", "B"]⟩)
            (some ⟨["g1"], ["c1", "c2"]⟩) none none none).none_freq
    ∧ check_valid_df_input
        [some ⟨["g1"], ["c1", "c2"]⟩, some ⟨["g1"], ["A", "B"]⟩] = true
    ∧ (exOracle.run (some ⟨["g1"], ["A", "B"]⟩) (some ⟨["g1"], ["c1", "c2"]⟩)
        none none none).mean_gene_type_score = some [1]
    ∧ (assign_cells_to_clade exParamsNoS exOracle exTree ["c1", "c2"] 0
        exState).inference_calls = ["r"]
    ∧ (assign_cells_to_clade exParamsNoS exOracle exTree ["c1", "c2"] 0
        exState).gene_type_score_dict = [] := by
  refine ⟨?_, ?_, ?_, ?_, ?_, ?_⟩ <;> with_unfolding_all decide

theorem recordAssignAux_lookup_unchanged (assign : Nat → Option Nat)
    (clean : List Clade) :
    ∀ (cells : List String) (k : Nat) (st : TAState) (x : String),
      (∀ p, cells.get? p = some x → assign (k + p) = none) →
      List.lookup x (recordAssignAux assign clean cells k st).clone_assign_dict
        = List.lookup x st.clone_assign_dict := by
  intro cells
  induction cells with
  | nil => intro k st x _; rfl
  | cons a tl ih =>
    intro k st x h
    have htl : ∀ p, tl.get? p = some x → assign (k + 1 + p) = none := by
      intro p hp
      have h2 := h (p + 1) (by simpa using hp)
      rwa [show k + (p + 1) = k + 1 + p by omega] at h2
    simp only [recordAssignAux]
    by_cases hax : a = x
    · subst hax
      have h0 : assign k = none := by
        have h3 := h 0 rfl
        simpa using h3
      rw [h0]
      exact ih _ _ _ htl
    · rcases hak : assign k with _ | j
      · exact ih _ _ _ htl
      · dsimp only
        rcases clean.get? j with _ | cl
        · exact ih _ _ _ htl
        · rw [ih _ _ _ htl]
          dsimp only
          rw [lookup_dictInsert, if_neg (fun hh => hax hh.symm)]

theorem pruneClean_dict (n : List String) (s : TAState) :
    (pruneClean n s).clone_assign_dict = s.clone_assign_dict := rfl

theorem multiStep_fst_lookup_not_mem (P : Params) (O : Oracle) (clean : List Clade)
    (c : Clade) (cells : List String) (st : TAState) (x : String)
    (hx : x ∉ cells) :
    List.lookup x ((multiStep P O clean c cells st).1).clone_assign_dict
      = List.lookup x st.clone_assign_dict := by
  unfold multiStep
  dsimp only
  split_ifs
  all_goals first
    | rfl
    | (rw [recordStep_dict]
       exact recordAssignAux_lookup_unchanged _ _ cells 0 _ x
         (fun p hp => absurd (List.get?_mem hp) hx))
    | (rw [pruneClean_dict, recordStep_dict]
       exact recordAssignAux_lookup_unchanged _ _ cells 0 _ x
         (fun p hp => absurd (List.get?_mem hp) hx))

theorem kidsFold_dict_frame {f : Clade → List String → TAState → TAState}
    {x : String}
    (hf : ∀ (ch : Clade) (cs' : List String) (st' : TAState), x ∉ cs' →
      List.lookup x (f ch cs' st').clone_assign_dict
        = List.lookup x st'.clone_assign_dict)
    (cells : List String) (assign : Nat → Option Nat)
    (hx : ∀ i, x ∉ cellsFor assign i cells 0) :
    ∀ (kids : List Clade) (i : Nat) (st : TAState),
      List.lookup x (kidsFold f cells assign kids i st).clone_assign_dict
        = List.lookup x st.clone_assign_dict := by
  intro kids
  induction kids with
  | nil => intro i st; rfl
  | cons a tl ihk =>
    intro i st
    have hstep : kidsFold f cells assign (a :: tl) i st
        = kidsFold f cells assign tl (i + 1) (f a (cellsFor assign i cells 0) st) := rfl
    rw [hstep, ihk (i + 1) _, hf a _ st (hx i)]

theorem visitF_dict_frame {P : Params} {O : Oracle} :
    ∀ (f : Nat) (c : Clade) (cs : List String) (lvl : Nat) (st : TAState)
      (x : String), x ∉ cs →
      List.lookup x (visitF P O f c cs lvl st).clone_assign_dict
        = List.lookup x st.clone_assign_dict := by
  intro f
  induction f with
  | zero => intro c cs lvl st x _; rfl
  | succ f ih =>
    intro c cs lvl st x hx
    simp only [visitF]
    unfold visitBody
    split
    · rfl
    split
    · rfl
    rcases hcl : cleanChildren P c with _ | ⟨a, _ | ⟨b, tl⟩⟩
    · simp only [hcl]
      rfl
    · simp only [hcl]
      rw [ih a cs (lvl + 1) _ x hx, lookup_commitAllTo, if_neg hx]
      rfl
    · simp only [hcl]
      split
      · rename_i st' heq
        have hms := multiStep_fst_lookup_not_mem P O (a :: b :: tl) c cs
          (pruneDirty P c (logVisit c lvl st)) x hx
        rw [heq] at hms
        exact hms
      · rename_i st' assign heq
        have hms := multiStep_fst_lookup_not_mem P O (a :: b :: tl) c cs
          (pruneDirty P c (logVisit c lvl st)) x hx
        rw [heq] at hms
        rw [kidsFold_dict_frame (fun ch cs' st' hx' => ih ch cs' (lvl + 1) st' x hx')
          cs assign ?_ _ 0 st', hms]
        · rfl
        · intro i hin
          rcases mem_cellsFor.mp hin with ⟨p, hp, _⟩
          exact hx (List.get?_mem hp)

/-- C9: in a visit whose inference result is committed, an eligible cell
whose returned per-cell index is missing (NaN) is excluded from every
recursive subset, is skipped by the commit loop, and keeps its previously
recorded assignment through the entire visit. -/
theorem claim_C9 {P : Params} {O : Oracle} {c k1 k2 : Clade} {krest : List Clade}
    {cells : List String} {level : Nat} {st : TAState}
    {oe oc oh osa osv : Option DF} {res : AssignResult}
    (hlv : ¬ level > P.level_cutoff)
    (hav : ¬ (cells.length < P.min_cell_count_expr ∨
      (Clade.leafNames c).length < P.min_cell_count_cnv))
    (hcl : cleanChildren P c = k1 :: k2 :: krest)
    (hbt : O.build_total ((k1 :: k2 :: krest).map Clade.leafNames) cells = (oe, oc))
    (hba : O.build_allele ((k1 :: k2 :: krest).map Clade.leafNames) cells = (oh, osa, osv))
    (husable : check_valid_df_input [oe, oc] = true
      ∨ check_valid_df_input [oh, osa, osv] = true)
    (hsig : ¬ ((if check_valid_df_input [oe, oc] = true then (dfIndex oc).length else 0)
          < P.min_gene_diff
        ∧ (if check_valid_df_input [oh, osa, osv] = true then (dfIndex oh).length else 0)
          < P.min_snp_diff))
    (hres : O.run (if check_valid_df_input [oe, oc] = true then oc else none)
        (if check_valid_df_input [oe, oc] = true then oe else none)
        (if check_valid_df_input [oh, osa, osv] = true then oh else none)
        (if check_valid_df_input [oh, osa, osv] = true then osa else none)
        (if check_valid_df_input [oh, osa, osv] = true then osv else none) = res)
    (hrec : P.min_record_freq ≤ 1 - res.none_freq)
    (hnd : cells.Nodup) {k : Nat} {x : String}
    (hcell : cells.get? k = some x) (hmiss : res.clone_assign k = none) :
    (∀ i, x ∉ cellsFor res.clone_assign i cells 0)
    ∧ List.lookup x (record_clone_assign_to_dict cells res.clone_assign
        (k1 :: k2 :: krest) st).clone_assign_dict
      = List.lookup x st.clone_assign_dict
    ∧ List.lookup x (assign_cells_to_clade P O c cells level st).clone_assign_dict
        = List.lookup x st.clone_assign_dict := by
  have hall : ∀ p, cells.get? p = some x → res.clone_assign p = none := by
    intro p hp
    have hpk : p = k := by
      have hlen : p < cells.length := by
        rcases List.get?_eq_some.mp hp with ⟨hl, _⟩
        exact hl
      apply List.getElem?_inj hlen hnd
      rw [← List.get?_eq_getElem?, ← List.get?_eq_getElem?, hp, hcell]
    rw [hpk, hmiss]
  have hexc : ∀ i, x ∉ cellsFor res.clone_assign i cells 0 := by
    intro i hin
    rcases mem_cellsFor.mp hin with ⟨p, hp, ha⟩
    rw [Nat.zero_add] at ha
    rw [hall p hp] at ha
    exact Option.noConfusion ha
  have hframe : ∀ (ch : Clade) (cs' : List String) (st' : TAState), x ∉ cs' →
      List.lookup x (assign_cells_to_clade P O ch cs' (level + 1) st').clone_assign_dict
        = List.lookup x st'.clone_assign_dict := by
    intro ch cs' st' hx'
    exact visitF_dict_frame (Clade.height ch) ch cs' (level + 1) st' x hx'
  have hrecdict : ∀ st0 : TAState,
      List.lookup x (record_clone_assign_to_dict cells res.clone_assign
        (k1 :: k2 :: krest) st0).clone_assign_dict
      = List.lookup x st0.clone_assign_dict := by
    intro st0
    exact recordAssignAux_lookup_unchanged res.clone_assign (k1 :: k2 :: krest)
      cells 0 st0 x (fun p hp => by simpa using hall p hp)
  refine ⟨hexc, hrecdict st, ?_⟩
  by_cases hproc : P.min_proceed_freq ≤ 1 - res.none_freq
  · have heq := @visit_multi_eq P O _ _ _ _ _ _ st hlv hav hcl
    rw [multiStep_proceed hbt hba husable hsig hres ⟨hrec, hproc⟩] at heq
    dsimp only at heq
    rw [heq]
    show List.lookup x (kidsFold _ cells res.clone_assign
      (k1 :: k2 :: krest) 0 _).clone_assign_dict = _
    rw [kidsFold_dict_frame hframe cells res.clone_assign hexc (k1 :: k2 :: krest) 0 _]
    rw [recordStep_dict]
    exact hrecdict _
  · have heq := @visit_multi_eq P O _ _ _ _ _ _ st hlv hav hcl
    rw [multiStep_stop hbt hba husable hsig hres (fun h => hproc h.2)] at heq
    dsimp only at heq
    rw [if_pos hrec] at heq
    rw [heq]
    show List.lookup x (pruneClean _ _).clone_assign_dict = _
    rw [show (pruneClean ((k1 :: k2 :: krest).map Clade.name)
        (recordStep P cells (k1 :: k2 :: krest) _ _ _ _ res
          (logInference c (pruneDirty P c (logVisit c level st))))).clone_assign_dict
      = (recordStep P cells (k1 :: k2 :: krest) _ _ _ _ res
          (logInference c (pruneDirty P c (logVisit c level st)))).clone_assign_dict
      from rfl]
    rw [recordStep_dict]
    exact hrecdict _

theorem claim_C9_witness :
    ["c1", "c2"].get? 1 = some "c2"
    ∧ ((exOracleNaN.run (some ⟨["g1"], ["A", "B"]⟩) (some ⟨["g1"], ["c1", "c2"]⟩)
        none none none).clone_assign 1 = none)
    ∧ List.lookup "c2"
        (assign_cells_to_clade exParams exOracleNaN exTree ["c1", "c2"] 0
          exState).clone_assign_dict
      = List.lookup "c2" exState.clone_assign_dict :=
  ⟨rfl, rfl,
   (claim_C9 (by decide) (by with_unfolding_all decide)
     (show cleanChildren exParams exTree = [Clade.node "A" [], Clade.node "B" []] by
       with_unfolding_all rfl)
     rfl rfl (Or.inl (by decide)) (by decide) rfl
     (by with_unfolding_all decide) (by decide)
     (rfl : ["c1", "c2"].get? 1 = some "c2") rfl).2.2⟩

theorem mem_subcladesList {x : Clade} : ∀ {cs : List Clade},
    x ∈ subcladesList cs ↔ ∃ r ∈ cs, x ∈ Clade.subclades r := by
  intro cs
  induction cs with
  | nil => simp [subcladesList]
  | cons a tl ih =>
    simp only [subcladesList, List.mem_append, ih]
    constructor
    · rintro (h | ⟨r, hr, hx⟩)
      · exact ⟨a, List.mem_cons_self _ _, h⟩
      · exact ⟨r, List.mem_cons_of_mem a hr, hx⟩
    · rintro ⟨r, hr, hx⟩
      rcases List.mem_cons.mp hr with rfl | hr'
      · exact Or.inl hx
      · exact Or.inr ⟨r, hr', hx⟩

theorem self_mem_subclades (c : Clade) : c ∈ Clade.subclades c := by
  cases c with
  | node n cs =>
    simp only [Clade.subclades]
    exact List.mem_cons_self _ _

theorem subclades_cases {T x : Clade} (h : x ∈ Clade.subclades T) :
    x = T ∨ ∃ r ∈ T.children, x ∈ Clade.subclades r := by
  cases T with
  | node n cs =>
    simp only [Clade.subclades] at h
    rcases List.mem_cons.mp h with h | h
    · exact Or.inl h
    · exact Or.inr (by simpa [Clade.children] using mem_subcladesList.mp h)

theorem subclades_of_mem_children {T r x : Clade} (hr : r ∈ T.children)
    (hx : x ∈ Clade.subclades r) : x ∈ Clade.subclades T := by
  cases T with
  | node n cs =>
    simp only [Clade.subclades]
    refine List.mem_cons_of_mem _ (mem_subcladesList.mpr ⟨r, ?_, hx⟩)
    simpa [Clade.children] using hr

theorem mem_subclades_trans_aux : ∀ (n : Nat) (T c : Clade),
    Clade.height T ≤ n → c ∈ Clade.subclades T →
    ∀ ch ∈ c.children, ch ∈ Clade.subclades T := by
  intro n
  induction n with
  | zero =>
    intro T c hT
    have := Clade.height_pos T
    omega
  | succ n ih =>
    intro T c hT hc ch hch
    rcases subclades_cases hc with rfl | ⟨r, hr, hcr⟩
    · exact subclades_of_mem_children hch (self_mem_subclades ch)
    · have hlt := Clade.height_child_le hr
      have hch2 := ih r c (by omega) hcr ch hch
      exact subclades_of_mem_children hr hch2

theorem mem_subclades_trans {T c : Clade} (hc : c ∈ Clade.subclades T) :
    ∀ ch ∈ c.children, ch ∈ Clade.subclades T :=
  mem_subclades_trans_aux (Clade.height T) T c le_rfl hc

theorem commitAllTo_writes (cells : List String) (nm : String) :
    ∀ st : TAState,
      (commitAllTo cells nm st).writes
        = st.writes ++ cells.map (fun y => (y, nm)) := by
  induction cells with
  | nil => intro st; simp [commitAllTo]
  | cons a tl ih =>
    intro st
    have hstep : commitAllTo (a :: tl) nm st
        = commitAllTo tl nm
            { st with clone_assign_dict := dictInsert st.clone_assign_dict a nm,
                      writes := st.writes ++ [(a, nm)] } := rfl
    rw [hstep, ih]
    simp [List.append_assoc]

theorem recordAssignAux_writes (assign : Nat → Option Nat) (clean : List Clade) :
    ∀ (cells : List String) (k : Nat) (st : TAState),
      (recordAssignAux assign clean cells k st).writes
        = st.writes ++ recordWrites assign clean cells k := by
  intro cells
  induction cells with
  | nil => intro k st; simp [recordAssignAux, recordWrites]
  | cons a tl ih =>
    intro k st
    simp only [recordAssignAux, recordWrites]
    rcases assign k with _ | j
    · rw [ih]
      simp
    · dsimp only
      rcases clean.get? j with _ | cl
      · rw [ih]
        simp
      · rw [ih]
        simp

theorem recordStep_writes (P : Params) (cells : List String) (clean : List Clade)
    (ci hi : List String) (ht ha : Bool) (res : AssignResult) (st : TAState) :
    (recordStep P cells clean ci hi ht ha res st).writes
      = st.writes ++ recordWrites res.clone_assign clean cells 0 := by
  unfold recordStep record_clone_assign_to_dict
  split_ifs <;> exact recordAssignAux_writes res.clone_assign clean cells 0 st

theorem multiStep_spec (P : Params) (O : Oracle) (clean : List Clade) (c : Clade)
    (cells : List String) (st : TAState) :
    ((multiStep P O clean c cells st).1.writes = st.writes
      ∧ (multiStep P O clean c cells st).1.clone_assign_dict = st.clone_assign_dict
      ∧ (multiStep P O clean c cells st).2 = none)
    ∨ ∃ res : AssignResult,
        (multiStep P O clean c cells st).1.writes
          = st.writes ++ recordWrites res.clone_assign clean cells 0
        ∧ (multiStep P O clean c cells st).1.clone_assign_dict
            = (record_clone_assign_to_dict cells res.clone_assign clean
                st).clone_assign_dict
        ∧ ((multiStep P O clean c cells st).2 = none
            ∨ (multiStep P O clean c cells st).2 = some res.clone_assign) := by
  unfold multiStep
  dsimp only
  split_ifs
  all_goals first
    | exact Or.inl ⟨rfl, rfl, rfl⟩
    | (refine Or.inr ⟨_, recordStep_writes P cells clean _ _ _ _ _ _, ?_, Or.inr rfl⟩
       rw [recordStep_dict]
       exact recordAssignAux_dict_congr _ clean cells 0 _ st rfl)
    | (exact Or.inr ⟨_,
        by
          rw [show ∀ (n : List String) (s : TAState), (pruneClean n s).writes = s.writes
              from fun _ _ => rfl]
          exact recordStep_writes P cells clean _ _ _ _ _ _,
        by
          rw [pruneClean_dict, recordStep_dict]
          exact recordAssignAux_dict_congr _ clean cells 0 _ st rfl,
        Or.inl rfl⟩)
    | tauto

theorem cellsFor_sublist (assign : Nat → Option Nat) (i : Nat) :
    ∀ (cells : List String) (k : Nat), (cellsFor assign i cells k).Sublist cells := by
  intro cells
  induction cells with
  | nil => intro k; simp [cellsFor]
  | cons a tl ih =>
    intro k
    simp only [cellsFor]
    by_cases h : assign k = some i
    · rw [if_pos h]
      exact (ih (k + 1)).cons₂ a
    · rw [if_neg h]
      exact (ih (k + 1)).cons a

theorem cellsFor_disjoint {assign : Nat → Option Nat} {cells : List String}
    (hnd : cells.Nodup) {i j : Nat} (hij : i ≠ j) {x : String}
    (hi : x ∈ cellsFor assign i cells 0) : x ∉ cellsFor assign j cells 0 := by
  intro hj
  rcases mem_cellsFor.mp hi with ⟨p, hp, hap⟩
  rcases mem_cellsFor.mp hj with ⟨q, hq, haq⟩
  have hpq : p = q := by
    have hlen : p < cells.length := by
      rcases List.get?_eq_some.mp hp with ⟨hl, _⟩
      exact hl
    apply List.getElem?_inj hlen hnd
    rw [← List.get?_eq_getElem?, ← List.get?_eq_getElem?, hp, hq]
  rw [Nat.zero_add] at hap haq
  rw [hpq, haq] at hap
  exact hij (Option.some_injective _ hap).symm

theorem commit_writes_filter (nm x : String) :
    ∀ cells : List String, cells.Nodup →
      ((cells.map (fun y => (y, nm))).filter (fun w => w.1 == x))
        = if x ∈ cells then [(x, nm)] else [] := by
  intro cells
  induction cells with
  | nil => intro _; simp
  | cons a tl ih =>
    intro hnd
    rcases List.nodup_cons.mp hnd with ⟨hna, hndtl⟩
    simp only [List.map_cons, List.filter_cons]
    by_cases hax : a = x
    · subst hax
      rw [if_pos (by simp), ih hndtl, if_neg hna,
        if_pos (List.mem_cons_self _ _)]
    · rw [if_neg (by simpa using hax), ih hndtl]
      by_cases hx : x ∈ tl
      · rw [if_pos hx, if_pos (List.mem_cons_of_mem a hx)]
      · rw [if_neg hx, if_neg (by
          simp only [List.mem_cons]
          rintro (rfl | hh)
          · exact hax rfl
          · exact hx hh)]

theorem recordWrites_keys (assign : Nat → Option Nat) (clean : List Clade) :
    ∀ (cells : List String) (k : Nat), ∀ w ∈ recordWrites assign clean cells k,
      w.1 ∈ cells := by
  intro cells
  induction cells with
  | nil => intro k w hw; simp [recordWrites] at hw
  | cons a tl ih =>
    intro k w hw
    simp only [recordWrites, List.mem_append] at hw
    rcases hw with hw | hw
    · rcases hak : assign k with _ | j
      · rw [hak] at hw; simp at hw
      · rw [hak] at hw
        dsimp only at hw
        rcases hcj : clean.get? j with _ | cl
        · rw [hcj] at hw; simp at hw
        · rw [hcj] at hw
          rcases List.mem_singleton.mp hw with rfl
          exact List.mem_cons_self _ _
    · exact List.mem_cons_of_mem a (ih (k + 1) w hw)

theorem recordWrites_filter {assign : Nat → Option Nat} {clean : List Clade}
    {x : String} :
    ∀ {cells : List String} {k p : Nat}, cells.Nodup → cells.get? p = some x →
      (recordWrites assign clean cells k).filter (fun w => w.1 == x)
        = (match assign (k + p) with
           | some j =>
             match clean.get? j with
             | some cl => [(x, cl.name)]
             | none => []
           | none => []) := by
  intro cells
  induction cells with
  | nil => intro k p _ hp; simp at hp
  | cons a tl ih =>
    intro k p hnd hp
    rcases List.nodup_cons.mp hnd with ⟨hna, hndtl⟩
    cases p with
    | zero =>
      rcases Option.some_injective _ hp with rfl
      have htl : (recordWrites assign clean tl (k + 1)).filter
          (fun w => w.1 == a) = [] := by
        rw [List.filter_eq_nil_iff]
        intro w hw
        have hmem := recordWrites_keys assign clean tl (k + 1) w hw
        simp only [beq_iff_eq]
        intro hh
        exact hna (hh ▸ hmem)
      simp only [recordWrites, List.filter_append, htl, List.append_nil,
        Nat.add_zero]
      rcases assign k with _ | j
      · rfl
      · dsimp only
        rcases clean.get? j with _ | cl
        · rfl
        · simp
    | succ p' =>
      have hxtl : x ∈ tl := List.get?_mem (by simpa using hp)
      have hax : (a == x) = false := by
        simp only [beq_eq_false_iff_ne, ne_eq]
        intro hh
        exact hna (hh ▸ hxtl)
      have hhead : ((match assign k with
           | some j =>
             match clean.get? j with
             | some cl => [(a, cl.name)]
             | none => []
           | none => []) : List (String × String)).filter (fun w => w.1 == x)
          = [] := by
        rcases assign k with _ | j
        · rfl
        · dsimp only
          rcases clean.get? j with _ | cl
          · rfl
          · simp [hax]
      simp only [recordWrites, List.filter_append, hhead, List.nil_append]
      rw [ih hndtl (by simpa using hp)]
      rw [show k + (p' + 1) = k + 1 + p' by omega]

theorem recordAssignAux_lookup_some (assign : Nat → Option Nat)
    (clean : List Clade) :
    ∀ (cells : List String) (k : Nat) (st : TAState) (x : String) (p j : Nat)
      (cl : Clade), cells.Nodup → cells.get? p = some x →
      assign (k + p) = some j → clean.get? j = some cl →
      List.lookup x (recordAssignAux assign clean cells k st).clone_assign_dict
        = some cl.name := by
  intro cells
  induction cells with
  | nil => intro k st x p j cl _ hp; simp at hp
  | cons a tl ih =>
    intro k st x p j cl hnd hp haj hcj
    rcases List.nodup_cons.mp hnd with ⟨hna, hndtl⟩
    cases p with
    | zero =>
      rcases Option.some_injective _ hp with rfl
      rw [Nat.add_zero] at haj
      simp only [recordAssignAux, haj]
      rw [hcj]
      rw [recordAssignAux_lookup_unchanged assign clean tl (k + 1) _ a
        (fun q hq => absurd (List.get?_mem hq) hna)]
      dsimp only
      rw [lookup_dictInsert, if_pos rfl]
    | succ p' =>
      have hxtl : x ∈ tl := List.get?_mem (by simpa using hp)
      have hax : ¬ a = x := fun hh => hna (hh ▸ hxtl)
      simp only [recordAssignAux]
      rcases hak : assign k with _ | j'
      · exact ih (k + 1) _ x p' j cl hndtl (by simpa using hp)
          (by rw [show k + 1 + p' = k + (p' + 1) by omega]; exact haj) hcj
      · dsimp only
        rcases clean.get? j' with _ | cl'
        · exact ih (k + 1) _ x p' j cl hndtl (by simpa using hp)
            (by rw [show k + 1 + p' = k + (p' + 1) by omega]; exact haj) hcj
        · exact ih (k + 1) _ x p' j cl hndtl (by simpa using hp)
            (by rw [show k + 1 + p' = k + (p' + 1) by omega]; exact haj) hcj

theorem filter_eq_nil_of_keys {Δ : List (String × String)} {x : String}
    (h : ∀ w ∈ Δ, ¬ w.1 = x) : Δ.filter (fun w => w.1 == x) = [] := by
  rw [List.filter_eq_nil_iff]
  intro w hw
  simp only [beq_iff_eq]
  exact h w hw

theorem mem_cells_of_mem_cellsFor {assign : Nat → Option Nat} {i : Nat}
    {cells : List String} {x : String} (h : x ∈ cellsFor assign i cells 0) :
    x ∈ cells := by
  rcases mem_cellsFor.mp h with ⟨p, hp, _⟩
  exact List.get?_mem hp

theorem kidsFold_chain_aux {P : Params} {O : Oracle} (T : Clade) (f : Nat)
    (lvl : Nat) (cells : List String) (assign : Nat → Option Nat)
    (hnd : cells.Nodup)
    (hIH : ∀ (c' : Clade) (cs' : List String) (st' : TAState),
      c' ∈ Clade.subclades T → cs'.Nodup →
      (∀ x ∈ cs', List.lookup x st'.clone_assign_dict = some c'.name) →
      ∃ Δ, (visitF P O f c' cs' lvl st').writes = st'.writes ++ Δ
        ∧ (∀ w ∈ Δ, w.1 ∈ cs')
        ∧ ∀ x ∈ cs', List.Chain' (ParentChildName T)
            (c'.name :: (Δ.filter (fun w => w.1 == x)).map Prod.snd)) :
    ∀ (kids : List Clade) (i : Nat) (st : TAState),
      (∀ idx ch, kids.get? idx = some ch → ch ∈ Clade.subclades T) →
      (∀ idx ch, kids.get? idx = some ch →
        ∀ x ∈ cellsFor assign (i + idx) cells 0,
          List.lookup x st.clone_assign_dict = some ch.name) →
      ∃ Δ, (kidsFold (fun ch cs s => visitF P O f ch cs lvl s)
          cells assign kids i st).writes = st.writes ++ Δ
        ∧ (∀ w ∈ Δ, ∃ idx, w.1 ∈ cellsFor assign (i + idx) cells 0 ∧ idx < kids.length)
        ∧ ∀ idx ch, kids.get? idx = some ch →
            ∀ x ∈ cellsFor assign (i + idx) cells 0,
              List.Chain' (ParentChildName T)
                (ch.name :: (Δ.filter (fun w => w.1 == x)).map Prod.snd) := by
  intro kids
  induction kids with
  | nil =>
    intro i st _ _
    refine ⟨[], by simp [kidsFold], by simp, ?_⟩
    intro idx ch hg
    simp at hg
  | cons a rest ihk =>
    intro i st hsub hinv
    obtain ⟨Δ0, h0w, h0loc, h0ch⟩ := hIH a (cellsFor assign i cells 0) st
      (hsub 0 a rfl)
      (hnd.sublist (cellsFor_sublist assign i cells 0))
      (fun x hx => hinv 0 a rfl x (by simpa using hx))
    obtain ⟨Δ1, h1w, h1loc, h1ch⟩ := ihk (i + 1)
      (visitF P O f a (cellsFor assign i cells 0) lvl st)
      (fun idx ch h => hsub (idx + 1) ch (by simpa using h))
      (fun idx ch h x hx => by
        have hx2 : x ∈ cellsFor assign (i + 1 + idx) cells 0 := hx
        have hxi : x ∉ cellsFor assign i cells 0 := by
          intro hxin
          exact cellsFor_disjoint hnd (show i ≠ i + 1 + idx by omega) hxin hx2
        rw [visitF_dict_frame f a _ lvl st x hxi]
        exact hinv (idx + 1) ch (by simpa using h) x
          (by rw [show i + (idx + 1) = i + 1 + idx by omega]; exact hx2))
    have hstep : kidsFold (fun ch cs s => visitF P O f ch cs lvl s)
        cells assign (a :: rest) i st
        = kidsFold (fun ch cs s => visitF P O f ch cs lvl s) cells assign rest
            (i + 1) (visitF P O f a (cellsFor assign i cells 0) lvl st) := rfl
    refine ⟨Δ0 ++ Δ1, ?_, ?_, ?_⟩
    · rw [hstep, h1w, h0w, List.append_assoc]
    · intro w hw
      rcases List.mem_append.mp hw with hw | hw
      · exact ⟨0, by simpa using h0loc w hw, by simp⟩
      · rcases h1loc w hw with ⟨idx, hxm, hlen⟩
        refine ⟨idx + 1, ?_, by simpa using hlen⟩
        rw [show i + (idx + 1) = i + 1 + idx by omega]
        exact hxm
    · intro idx ch hg x hx
      rw [List.filter_append, List.map_append]
      cases idx with
      | zero =>
        rcases Option.some_injective _ hg with rfl
        have hx' : x ∈ cellsFor assign i cells 0 := by simpa using hx
        have h1f : Δ1.filter (fun w => w.1 == x) = [] := by
          apply filter_eq_nil_of_keys
          intro w hw hwx
          rcases h1loc w hw with ⟨idx', hxm, _⟩
          rw [hwx] at hxm
          exact cellsFor_disjoint hnd (show i ≠ i + 1 + idx' by omega) hx' hxm
        rw [h1f]
        simp only [List.map_nil, List.append_nil]
        exact h0ch x hx'
      | succ idx' =>
        have hx' : x ∈ cellsFor assign (i + 1 + idx') cells 0 := by
          rw [show i + 1 + idx' = i + (idx' + 1) by omega]
          exact hx
        have h0f : Δ0.filter (fun w => w.1 == x) = [] := by
          apply filter_eq_nil_of_keys
          intro w hw hwx
          have hmem := h0loc w hw
          rw [hwx] at hmem
          exact cellsFor_disjoint hnd (show i + 1 + idx' ≠ i by omega) hx' hmem
        rw [h0f]
        simp only [List.map_nil, List.nil_append]
        exact h1ch idx' ch (by simpa using hg) x hx'

theorem visitF_chain {P : Params} {O : Oracle} (T : Clade) :
    ∀ (f : Nat) (c : Clade) (cells : List String) (lvl : Nat) (st : TAState),
      c ∈ Clade.subclades T → cells.Nodup →
      (∀ x ∈ cells, List.lookup x st.clone_assign_dict = some c.name) →
      ∃ Δ, (visitF P O f c cells lvl st).writes = st.writes ++ Δ
        ∧ (∀ w ∈ Δ, w.1 ∈ cells)
        ∧ ∀ x ∈ cells, List.Chain' (ParentChildName T)
            (c.name :: (Δ.filter (fun w => w.1 == x)).map Prod.snd) := by
  intro f
  induction f with
  | zero =>
    intro c cells lvl st _ _ _
    exact ⟨[], by simp [visitF], by simp, fun x _ => by simp⟩
  | succ f ih =>
    intro c cells lvl st hsub hnd hinv
    simp only [visitF]
    unfold visitBody
    split
    · exact ⟨[], by rw [List.append_nil]; rfl, by simp, fun x _ => by simp⟩
    split
    · exact ⟨[], by rw [List.append_nil]; rfl, by simp, fun x _ => by simp⟩
    rcases hcl : cleanChildren P c with _ | ⟨a, _ | ⟨b, tl⟩⟩
    · simp only [hcl]
      exact ⟨[], by rw [List.append_nil]; rfl, by simp, fun x _ => by simp⟩
    · simp only [hcl]
      have honly : a ∈ c.children :=
        mem_cleanChildren (hcl ▸ List.mem_cons_self a [])
      obtain ⟨Δc, hcw, hcloc, hcch⟩ := ih a cells (lvl + 1)
        (commitAllTo cells a.name (pruneDirty P c (logVisit c lvl st)))
        (mem_subclades_trans hsub a honly)
        hnd
        (fun x hx => by rw [lookup_commitAllTo, if_pos hx])
      refine ⟨cells.map (fun y => (y, a.name)) ++ Δc, ?_, ?_, ?_⟩
      · rw [hcw, commitAllTo_writes]
        show (st.writes ++ _) ++ Δc = _
        rw [List.append_assoc]
      · intro w hw
        rcases List.mem_append.mp hw with hw | hw
        · rcases List.mem_map.mp hw with ⟨y, hy, rfl⟩
          exact hy
        · exact hcloc w hw
      · intro x hx
        rw [List.filter_append, List.map_append,
          commit_writes_filter a.name x cells hnd, if_pos hx]
        simp only [List.map_cons, List.map_nil, List.singleton_append]
        rw [List.chain'_cons]
        constructor
        · exact ⟨c, hsub, rfl, List.mem_map.mpr ⟨a, honly, rfl⟩⟩
        · exact hcch x hx
    · simp only [hcl]
      split
      · rename_i st' heq
        rcases multiStep_spec P O (a :: b :: tl) c cells
            (pruneDirty P c (logVisit c lvl st)) with
          ⟨hw, _, _⟩ | ⟨res, hw, _, _⟩
        · rw [heq] at hw
          refine ⟨[], ?_, by simp, fun x _ => by simp⟩
          rw [List.append_nil]
          exact hw
        · rw [heq] at hw
          refine ⟨recordWrites res.clone_assign (a :: b :: tl) cells 0, hw, ?_, ?_⟩
          · exact recordWrites_keys res.clone_assign (a :: b :: tl) cells 0
          · intro x hx
            obtain ⟨p, hp⟩ := List.get?_of_mem hx
            have hflt := @recordWrites_filter res.clone_assign (a :: b :: tl)
              x cells 0 p hnd hp
            rw [Nat.zero_add] at hflt
            rw [hflt]
            rcases res.clone_assign p with _ | j
            · simp
            · rcases hcj : (a :: b :: tl).get? j with _ | cl
              · simp only [hcj]
                simp
              · simp only [hcj, List.map_cons, List.map_nil]
                refine List.chain'_cons.mpr ⟨?_, List.chain'_singleton _⟩
                refine ⟨c, hsub, rfl, ?_⟩
                exact List.mem_map.mpr
                  ⟨cl, mem_cleanChildren (hcl ▸ List.get?_mem hcj), rfl⟩
      · rename_i st' assign heq
        rcases multiStep_spec P O (a :: b :: tl) c cells
            (pruneDirty P c (logVisit c lvl st)) with
          ⟨_, _, h2⟩ | ⟨res, hw, hd, h2⟩
        · rw [heq] at h2
          exact absurd h2 (by simp)
        · rw [heq] at hw hd h2
          rcases h2 with h2 | h2
          · exact absurd h2 (by simp)
          · have hassign : assign = res.clone_assign := by
              simpa using h2
            subst hassign
            obtain ⟨Δk, hkw, hkloc, hkch⟩ := kidsFold_chain_aux T f (lvl + 1)
              cells res.clone_assign hnd
              (fun c' cs' s' ha hb hcc => ih c' cs' (lvl + 1) s' ha hb hcc)
              (a :: b :: tl) 0 st'
              (fun idx ch hg =>
                mem_subclades_trans hsub ch (mem_cleanChildren (hcl ▸ List.get?_mem hg)))
              (fun idx ch hg x hx => by
                rcases mem_cellsFor.mp hx with ⟨p, hp, hap⟩
                have hd' : st'.clone_assign_dict
                    = (record_clone_assign_to_dict cells res.clone_assign (a :: b :: tl)
                        (pruneDirty P c (logVisit c lvl st))).clone_assign_dict := hd
                rw [hd']
                exact recordAssignAux_lookup_some res.clone_assign (a :: b :: tl) cells 0 _
                  x p idx ch hnd hp (by simpa using hap) hg)
            refine ⟨recordWrites res.clone_assign (a :: b :: tl) cells 0 ++ Δk, ?_, ?_, ?_⟩
            · rw [hkw, hw, List.append_assoc]; rfl
            · intro w hwm
              rcases List.mem_append.mp hwm with hwm | hwm
              · exact recordWrites_keys res.clone_assign (a :: b :: tl) cells 0 w hwm
              · rcases hkloc w hwm with ⟨idx, hxm, _⟩
                exact mem_cells_of_mem_cellsFor (by rw [Nat.zero_add] at hxm; exact hxm)
            · intro x hx
              obtain ⟨p, hp⟩ := List.get?_of_mem hx
              have hflt := @recordWrites_filter res.clone_assign (a :: b :: tl)
                x cells 0 p hnd hp
              rw [Nat.zero_add] at hflt
              rw [List.filter_append, List.map_append, hflt]
              have hplen : p < cells.length := by
                rcases List.get?_eq_some.mp hp with ⟨hl, _⟩
                exact hl
              have huniq : ∀ q, cells.get? q = some x → q = p := by
                intro q hq
                have hqlen : q < cells.length := by
                  rcases List.get?_eq_some.mp hq with ⟨hl, _⟩
                  exact hl
                apply List.getElem?_inj hqlen hnd
                rw [← List.get?_eq_getElem?, ← List.get?_eq_getElem?, hq, hp]
              rcases hap : res.clone_assign p with _ | j
              · have hkf : Δk.filter (fun w => w.1 == x) = [] := by
                  apply filter_eq_nil_of_keys
                  intro w hwm hwx
                  rcases hkloc w hwm with ⟨idx, hxm, _⟩
                  rw [hwx, Nat.zero_add] at hxm
                  rcases mem_cellsFor.mp hxm with ⟨q, hq, haq⟩
                  rw [Nat.zero_add] at haq
                  rw [huniq q hq, hap] at haq
                  exact Option.noConfusion haq
                rw [hkf]
                simp
              · rcases hcj : (a :: b :: tl).get? j with _ | cl
                · have hkf : Δk.filter (fun w => w.1 == x) = [] := by
                    apply filter_eq_nil_of_keys
                    intro w hwm hwx
                    rcases hkloc w hwm with ⟨idx, hxm, hlen⟩
                    rw [hwx, Nat.zero_add] at hxm
                    rcases mem_cellsFor.mp hxm with ⟨q, hq, haq⟩
                    rw [Nat.zero_add] at haq
                    rw [huniq q hq, hap] at haq
                    have hij : idx = j := by
                      exact (Option.some_injective _ haq).symm
                    rw [hij] at hlen
                    rcases List.get?_eq_some.mpr ⟨hlen, rfl⟩ with hsome
                    rw [hcj] at hsome
                    exact Option.noConfusion hsome
                  rw [hkf]
                  simp only [hcj]
                  simp
                · have hxj : x ∈ cellsFor res.clone_assign j cells 0 :=
                    mem_cellsFor.mpr ⟨p, hp, by rw [Nat.zero_add]; exact hap⟩
                  have hchain := hkch j cl (by simpa using hcj) x (by
                    rw [Nat.zero_add]
                    exact hxj)
                  simp only [hcj, List.map_cons, List.map_nil, List.singleton_append]
                  rw [List.chain'_cons]
                  constructor
                  · exact ⟨c, hsub, rfl, List.mem_map.mpr
                      ⟨cl, mem_cleanChildren (hcl ▸ List.get?_mem hcj), rfl⟩⟩
                  · exact hchain

/-- C5: during one traversal run started on a fresh write log, the
chronological sequence of values successively written to any input cell's
entry in `clone_assign_dict` (the initial root-name default included) is a
chain in which every later value is the name of a direct child of the clade
named by the value before it; hence the values a cell takes lie on a single
root-to-leaf path of the tree and never revert to a shallower clade. -/
theorem claim_C5 (P : Params) (O : Oracle) (T : Clade) (expr_df snv_df : Option DF)
    (st : TAState) (cells : List String) (out : TAState)
    (hrun : assign_cells_to_tree P O expr_df snv_df T st = some out)
    (hin : inputCells expr_df snv_df = some cells)
    (hnd : cells.Nodup) (hw0 : st.writes = []) :
    ∀ x ∈ cells, List.Chain' (ParentChildName T)
      ((out.writes.filter (fun w => w.1 == x)).map Prod.snd) := by
  intro x hx
  simp only [assign_cells_to_tree, hin, Option.some.injEq] at hrun
  subst hrun
  obtain ⟨Δ, hΔw, _, hΔch⟩ := visitF_chain T (Clade.height T) T cells 0
    (record_clone_assign_to_default cells T.name { st with pruned_clades := [] })
    (self_mem_subclades T) hnd
    (fun y hy => by
      rw [record_clone_assign_to_default, lookup_commitAllTo, if_pos hy])
  rw [assign_cells_to_clade, hΔw, record_clone_assign_to_default,
    commitAllTo_writes]
  have hst1 : ({ st with pruned_clades := [] } : TAState).writes = [] := hw0
  rw [hst1, List.nil_append, List.filter_append, List.map_append,
    commit_writes_filter T.name x cells hnd, if_pos hx]
  simp only [List.map_cons, List.map_nil, List.singleton_append]
  exact hΔch x hx

theorem claim_C5_witness :
    List.Chain' (ParentChildName exTree)
      (((assign_cells_to_clade exParams exOracle exTree ["c1", "c2"] 0
          (record_clone_assign_to_default ["c1", "c2"] "r"
            { exState with pruned_clades := [] })).writes.filter
          (fun w => w.1 == "c1")).map Prod.snd) :=
  claim_C5 exParams exOracle exTree (some exExpr) none exState ["c1", "c2"] _
    (by with_unfolding_all rfl) rfl (by decide) rfl "c1" (by decide)

end TreeAlign
